import Mathlib

/-!
Verification of the vision-guided UI interaction engine of
`web_llm_interactor` against its design document.

Each Python function named by a claim is shallowly embedded as a Lean
definition translated from the source; theorems about those definitions
settle the claims.
-/

namespace WebLLM

/-!
Embedding of `capture_response` from
`src/_archive/claude_bork/poc/claude_interface.py` (lines 150-309).

Time is modelled by an idealized discrete clock: an osascript invocation
is instantaneous, `time.sleep(d)` advances the clock by `d`, and all
`time.time()` readings inside one loop iteration coincide.  The injected
reader `read : Nat -> Option String` is indexed by the number of
osascript invocations made so far; `none` models a raised exception.
The polling loop is driven by explicit fuel; `none` from the driver means
the fuel ran out before the function returned.
-/

/-- Sentinel string returned by the in-page script while the response is
still being generated. -/
def stillGenerating : String := "__STILL_GENERATING__"

/-- Arguments of `capture_response` (`max_wait_time`, `polling_interval`,
`max_retries`). -/
structure CapConfig where
  maxWait : ℚ
  pollInterval : ℚ
  maxRetries : ℕ
  deriving DecidableEq

/-- Loop state of `capture_response`: elapsed time, number of osascript
calls made so far, `last_content` and `last_content_time`. -/
structure CapState where
  time : ℚ
  calls : ℕ
  lastContent : Option String
  lastContentTime : Option ℚ
  deriving DecidableEq

/-- Return value of `capture_response`: the stable text returned from
inside the loop, the best-effort `last_content` returned after the loop
when it is longer than 20 characters, or the final error string. -/
inductive CapOutcome where
  | stable (text : String)
  | timeoutText (text : String)
  | timeoutFailed
  deriving DecidableEq

/-- Observable result of a run: the outcome together with the elapsed
time at the `return` statement and the total number of reader calls. -/
structure CapReturn where
  outcome : CapOutcome
  endTime : ℚ
  reads : ℕ
  deriving DecidableEq

/-- Inner retry loop of `capture_response` (`for retry in
range(max_retries)`): each failed non-final attempt sleeps one second and
retries; failure of the final attempt re-raises (modelled as `none`).
With `max_retries = 0` the loop body never runs and the subsequent use of
the unbound `response_text` raises; both reach the outer handler, so both
are modelled as `none`. -/
def attemptRead (read : ℕ → Option String) : ℕ → ℕ → ℚ → Option String × ℕ × ℚ
  | 0, calls, t => (none, calls, t)
  | remaining + 1, calls, t =>
    match read calls with
    | some s => (some s, calls + 1, t)
    | none =>
      if remaining = 0 then (none, calls + 1, t)
      else attemptRead read remaining (calls + 1) (t + 1)

/-- One iteration of the polling loop of `capture_response`, entered with
`time < max_wait_time`: a reader exception or the still-generating
sentinel just sleeps `polling_interval`; unchanged content is returned
once it has been stable for at least 5 seconds and is longer than 50
characters; changed content resets `last_content` and
`last_content_time`.  `.inl` continues the loop, `.inr` returns. -/
def capStep (cfg : CapConfig) (read : ℕ → Option String) (st : CapState) :
    CapState ⊕ CapReturn :=
  match attemptRead read cfg.maxRetries st.calls st.time with
  | (none, calls1, t1) =>
    .inl { st with time := t1 + cfg.pollInterval, calls := calls1 }
  | (some s, calls1, t1) =>
    if s = stillGenerating then
      .inl { st with time := t1 + cfg.pollInterval, calls := calls1 }
    else if st.lastContent = some s then
      let lct := st.lastContentTime.getD t1
      if 5 ≤ t1 - lct ∧ 50 < s.length then
        .inr { outcome := .stable s, endTime := t1, reads := calls1 }
      else
        .inl { time := t1 + cfg.pollInterval, calls := calls1,
               lastContent := st.lastContent, lastContentTime := some lct }
    else
      .inl { time := t1 + cfg.pollInterval, calls := calls1,
             lastContent := some s, lastContentTime := some t1 }

/-- Fuel-driven polling loop of `capture_response`.  When the while
condition fails, the function returns `last_content` when it is set and
longer than 20 characters, else the error string. -/
def captureGo (cfg : CapConfig) (read : ℕ → Option String) :
    ℕ → CapState → Option CapReturn
  | 0, _ => none
  | fuel + 1, st =>
    if st.time < cfg.maxWait then
      match capStep cfg read st with
      | .inl st1 => captureGo cfg read fuel st1
      | .inr r => some r
    else
      some { outcome :=
               match st.lastContent with
               | some c => if 20 < c.length then .timeoutText c else .timeoutFailed
               | none => .timeoutFailed,
             endTime := st.time, reads := st.calls }

/-- Entry point of `capture_response`: run the polling loop from the
initial state (`last_content = None`, `last_content_time = None`). -/
def captureRun (cfg : CapConfig) (read : ℕ → Option String) (fuel : ℕ) :
    Option CapReturn :=
  captureGo cfg read fuel { time := 0, calls := 0, lastContent := none, lastContentTime := none }

/-- Number of consecutive unchanged polls after which `capture_response`
declares stability, derived from its fixed 5-second stability window and
the polling interval: polls happen every `p` seconds, so the content must
be seen unchanged `ceil (5 / p)` times after it last changed. -/
def requiredStableCount (p : ℚ) : ℕ := ⌈(5 : ℚ) / p⌉₊

/-- Loop state after `j ≥ 1` polls of a constant non-sentinel reader:
the content was recorded at time 0 and has stayed unchanged since. -/
def capMid (s : String) (p : ℚ) (j : ℕ) : CapState :=
  { time := (j : ℚ) * p, calls := j, lastContent := some s, lastContentTime := some 0 }

/-- Loop state after `j` polls of a reader whose outputs are pairwise
distinct: `last_content` always holds the previous poll's text. -/
def capDrift (f : ℕ → String) (p : ℚ) (j : ℕ) : CapState :=
  { time := (j : ℚ) * p, calls := j,
    lastContent := if j = 0 then none else some (f (j - 1)),
    lastContentTime := if j = 0 then none else some ((j - 1 : ℕ) * p) }

theorem attemptRead_success (read : ℕ → Option String) {mr : ℕ} (calls : ℕ) (t : ℚ)
    (hmr : 0 < mr) {s : String} (h : read calls = some s) :
    attemptRead read mr calls t = (some s, calls + 1, t) := by
  obtain ⟨m, rfl⟩ : ∃ m, mr = m + 1 := ⟨mr - 1, by omega⟩
  simp [attemptRead, h]

theorem capStep_stable_of_inr (cfg : CapConfig) (read : ℕ → Option String)
    (st : CapState) (r : CapReturn) (h : capStep cfg read st = .inr r) :
    ∃ t, r.outcome = .stable t := by
  unfold capStep at h
  rcases hra : attemptRead read cfg.maxRetries st.calls st.time with ⟨ro, calls1, t1⟩
  rw [hra] at h
  rcases ro with _ | s
  · simp at h
  · simp only [] at h
    split at h
    · simp at h
    · split at h
      · split at h
        · rename_i hcond
          exact ⟨s, by cases h; rfl⟩
        · simp at h
      · simp at h

/-- Every returned result is either a stable return from inside the loop
or carries an end time at or past `max_wait_time`. -/
theorem captureGo_not_early (cfg : CapConfig) (read : ℕ → Option String) :
    ∀ (fuel : ℕ) (st : CapState) (r : CapReturn),
      captureGo cfg read fuel st = some r →
      (∃ t, r.outcome = .stable t) ∨ cfg.maxWait ≤ r.endTime := by
  intro fuel
  induction fuel with
  | zero => intro st r h; simp [captureGo] at h
  | succ fuel ih =>
    intro st r h
    rw [captureGo] at h
    split at h
    · rcases hstep : capStep cfg read st with st1 | r1
      · rw [hstep] at h; exact ih _ _ h
      · rw [hstep] at h
        cases h
        exact .inl (capStep_stable_of_inr cfg read st _ hstep)
    · rename_i hge
      cases h
      exact .inr (le_of_not_lt hge)

theorem capture_stable_loop (cfg : CapConfig) (hp : 0 < cfg.pollInterval)
    (hmr : 0 < cfg.maxRetries) (s : String) (hs : s ≠ stillGenerating)
    (hl : 50 < s.length)
    (hfit : (requiredStableCount cfg.pollInterval : ℚ) * cfg.pollInterval < cfg.maxWait) :
    ∀ (k j fuel : ℕ), j + k = requiredStableCount cfg.pollInterval → 1 ≤ j →
      k + 1 ≤ fuel →
      captureGo cfg (fun _ => some s) fuel (capMid s cfg.pollInterval j) =
        some { outcome := .stable s,
               endTime := (requiredStableCount cfg.pollInterval : ℚ) * cfg.pollInterval,
               reads := requiredStableCount cfg.pollInterval + 1 } := by
  set p := cfg.pollInterval with hpdef
  set N := requiredStableCount p with hNdef
  have hN5 : (5 : ℚ) ≤ (N : ℚ) * p := by
    have h1 : (5 : ℚ) / p ≤ (N : ℚ) := Nat.le_ceil _
    calc (5 : ℚ) = 5 / p * p := by field_simp
    _ ≤ (N : ℚ) * p := by exact mul_le_mul_of_nonneg_right h1 (le_of_lt hp)
  intro k
  induction k with
  | zero =>
    intro j fuel hjk hj1 hfuel
    obtain ⟨f, rfl⟩ : ∃ f, fuel = f + 1 := ⟨fuel - 1, by omega⟩
    have hjN : j = N := by omega
    subst hjN
    rw [captureGo]
    rw [if_pos (by simpa [capMid] using hfit)]
    have hstep : capStep cfg (fun _ => some s) (capMid s p N) =
        .inr { outcome := .stable s, endTime := (N : ℚ) * p, reads := N + 1 } := by
      unfold capStep
      rw [attemptRead_success (fun _ => some s) _ _ hmr rfl]
      simp only [capMid, if_neg hs]
      rw [if_pos trivial]
      simp only [Option.getD_some]
      rw [if_pos ⟨by linarith, hl⟩]
    rw [hstep]
  | succ k ih =>
    intro j fuel hjk hj1 hfuel
    obtain ⟨f, rfl⟩ : ∃ f, fuel = f + 1 := ⟨fuel - 1, by omega⟩
    have hjN : j < N := by omega
    have hjp5 : (j : ℚ) * p < 5 := by
      have h1 : (j : ℚ) < 5 / p := (Nat.lt_ceil).mp hjN
      calc (j : ℚ) * p < 5 / p * p := by
            exact mul_lt_mul_of_pos_right h1 hp
      _ = 5 := by field_simp
    rw [captureGo]
    rw [if_pos (by
      show ((j : ℚ) * p) < cfg.maxWait
      have hjle : (j : ℚ) * p ≤ (N : ℚ) * p := by
        have : (j : ℚ) ≤ (N : ℚ) := by exact_mod_cast le_of_lt hjN
        exact mul_le_mul_of_nonneg_right this (le_of_lt hp)
      linarith)]
    have hstep : capStep cfg (fun _ => some s) (capMid s p j) =
        .inl (capMid s p (j + 1)) := by
      unfold capStep
      rw [attemptRead_success (fun _ => some s) _ _ hmr rfl]
      simp only [capMid, if_neg hs]
      rw [if_pos trivial]
      simp only [Option.getD_some]
      rw [if_neg (by
        rintro ⟨h5, -⟩
        have : (5 : ℚ) ≤ (j : ℚ) * p := by linarith
        linarith)]
      congr 1
      simp only [capMid, CapState.mk.injEq]
      refine ⟨by push_cast; ring, trivial, trivial, trivial⟩
    rw [hstep]
    exact ih (j + 1) f (by omega) (by omega) (by omega)

theorem capture_drift_loop (cfg : CapConfig)
    (hmr : 0 < cfg.maxRetries) (f : ℕ → String) (hf : Function.Injective f)
    (hfsen : ∀ k, f k ≠ stillGenerating) :
    ∀ (fuel j : ℕ), cfg.maxWait ≤ (j : ℚ) * cfg.pollInterval + (fuel : ℚ) * cfg.pollInterval →
      ∃ r, captureGo cfg (fun k => some (f k)) (fuel + 1) (capDrift f cfg.pollInterval j) = some r ∧
        (∀ t, r.outcome ≠ .stable t) ∧ cfg.maxWait ≤ r.endTime := by
  set p := cfg.pollInterval with hpdef
  intro fuel
  induction fuel with
  | zero =>
    intro j hW
    rw [captureGo]
    rw [if_neg (by simp only [capDrift]; push_cast at hW ⊢; linarith)]
    refine ⟨_, rfl, ?_, ?_⟩
    · intro t
      simp only [capDrift]
      split
      · split <;> simp
      · simp
    · simp only [capDrift]
      push_cast at hW
      linarith
  | succ fuel ih =>
    intro j hW
    by_cases hlt : (j : ℚ) * p < cfg.maxWait
    · rw [captureGo]
      rw [if_pos (by simpa [capDrift] using hlt)]
      have hstep : capStep cfg (fun k => some (f k)) (capDrift f p j) =
          .inl (capDrift f p (j + 1)) := by
        unfold capStep
        rw [attemptRead_success (fun k => some (f k)) _ _ hmr rfl]
        simp only [capDrift, if_neg (hfsen j)]
        rw [if_neg (by
          split
          · simp
          · rename_i hj0
            simp only [Option.some.injEq]
            intro hEq
            have := hf hEq
            omega)]
        congr 1
        simp only [capDrift, if_neg (by omega : ¬ j + 1 = 0)]
        have h1 : j + 1 - 1 = j := by omega
        rw [h1]
        congr 1
        push_cast
        ring
      rw [hstep]
      exact ih (j + 1) (by push_cast at hW ⊢; linarith)
    · rw [captureGo]
      rw [if_neg (by simpa [capDrift] using hlt)]
      refine ⟨_, rfl, ?_, ?_⟩
      · intro t
        simp only [capDrift]
        split
        · split <;> simp
        · simp
      · simpa [capDrift] using le_of_not_lt hlt

/-- Constant reader text used in concrete runs: 51 characters, so it
passes the `len(response_text) > 50` stability condition. -/
def capX : String := String.mk (List.replicate 51 'a')

/-- C1: with a reader that returns the same non-sentinel string of more
than 50 characters on every poll, `capture_response` returns it as stable
after exactly `requiredStableCount` consecutive unchanged polls (the
first poll records the content, the next `requiredStableCount` polls see
it unchanged, so `requiredStableCount + 1` reads happen and the stable
return fires at elapsed time `requiredStableCount * pollInterval`); with
a reader that never stabilizes (pairwise distinct non-sentinel outputs)
it returns a non-stable timeout outcome with end time at or past
`max_wait_time`; and in every run whatsoever a non-stable result is only
returned once elapsed time has reached `max_wait_time`, never before. -/
theorem capture_response_stable_count_and_timeout
    (cfg : CapConfig) (hp : 0 < cfg.pollInterval) (hmr : 0 < cfg.maxRetries)
    (s : String) (hs : s ≠ stillGenerating) (hl : 50 < s.length)
    (f : ℕ → String) (hf : Function.Injective f) (hfsen : ∀ k, f k ≠ stillGenerating)
    (hfit : (requiredStableCount cfg.pollInterval : ℚ) * cfg.pollInterval < cfg.maxWait) :
    (∀ fuel, requiredStableCount cfg.pollInterval + 1 ≤ fuel →
      captureRun cfg (fun _ => some s) fuel =
        some { outcome := .stable s,
               endTime := (requiredStableCount cfg.pollInterval : ℚ) * cfg.pollInterval,
               reads := requiredStableCount cfg.pollInterval + 1 }) ∧
    (∀ g : ℕ, cfg.maxWait ≤ (g : ℚ) * cfg.pollInterval →
      ∃ r, captureRun cfg (fun k => some (f k)) (g + 1) = some r ∧
        (∀ t, r.outcome ≠ .stable t) ∧ cfg.maxWait ≤ r.endTime) ∧
    (∀ (read : ℕ → Option String) (fuel : ℕ) (r : CapReturn),
      captureRun cfg read fuel = some r →
      (∃ t, r.outcome = .stable t) ∨ cfg.maxWait ≤ r.endTime) := by
  set p := cfg.pollInterval with hpdef
  set N := requiredStableCount p with hNdef
  have hN1 : 1 ≤ N := Nat.ceil_pos.mpr (div_pos (by norm_num) hp)
  have hNp0 : (0 : ℚ) ≤ (N : ℚ) * p :=
    mul_nonneg (Nat.cast_nonneg N) (le_of_lt hp)
  refine ⟨?_, ?_, ?_⟩
  · intro fuel hfuel
    obtain ⟨g, rfl⟩ : ∃ g, fuel = g + 1 := ⟨fuel - 1, by omega⟩
    rw [captureRun, captureGo]
    rw [if_pos (by simpa using lt_of_le_of_lt hNp0 hfit)]
    have hstep : capStep cfg (fun _ => some s)
        { time := 0, calls := 0, lastContent := none, lastContentTime := none } =
        .inl (capMid s p 1) := by
      unfold capStep
      rw [attemptRead_success (fun _ => some s) _ _ hmr rfl]
      simp only [if_neg hs]
      rw [if_neg (by simp)]
      congr 1
      simp only [capMid, CapState.mk.injEq]
      refine ⟨by push_cast; ring, trivial, trivial, trivial⟩
    rw [hstep]
    exact capture_stable_loop cfg hp hmr s hs hl hfit (N - 1) 1 g
      (by show 1 + (N - 1) = N; omega) le_rfl (by show N - 1 + 1 ≤ g; omega)
  · intro g hg
    have hstate : capDrift f p 0 =
        { time := 0, calls := 0, lastContent := none, lastContentTime := none } := by
      simp [capDrift]
    obtain ⟨r, hr, hns, hW⟩ := capture_drift_loop cfg hmr f hf hfsen g 0
      (by push_cast; linarith)
    rw [hstate] at hr
    exact ⟨r, hr, hns, hW⟩
  · intro read fuel r h
    exact captureGo_not_early cfg read fuel _ r h

/-- Witness for C1 at `max_wait_time = 45`, `polling_interval = 5`,
`max_retries = 3`: a constant 51-character reader stabilizes after
`requiredStableCount 5 = 1` unchanged poll, with 2 reads, at elapsed
time 5; a reader producing pairwise distinct texts times out at or past
45 seconds. -/
theorem capture_response_stable_count_and_timeout_witness :
    (captureRun ⟨45, 5, 3⟩ (fun _ => some capX) 2 =
      some { outcome := .stable capX, endTime := (requiredStableCount 5 : ℚ) * 5,
             reads := requiredStableCount 5 + 1 }) ∧
    (∃ r, captureRun ⟨45, 5, 3⟩ (fun k => some (String.mk (List.replicate k 'b'))) 10 =
        some r ∧ (∀ t, r.outcome ≠ .stable t) ∧ (45 : ℚ) ≤ r.endTime) := by
  have hinj : Function.Injective (fun k => String.mk (List.replicate k 'b')) := by
    intro a b h
    have hd := congrArg String.data h
    simp only [] at hd
    have := congrArg List.length hd
    simpa using this
  have hsen : ∀ k, String.mk (List.replicate k 'b') ≠ stillGenerating := by
    intro k h
    have hd := congrArg String.data h
    have hlen := congrArg List.length hd
    simp [stillGenerating] at hlen
    subst hlen
    exact absurd hd (by decide)
  have hrsc : requiredStableCount 5 = 1 := by
    rw [requiredStableCount]
    norm_num
  have h := capture_response_stable_count_and_timeout ⟨45, 5, 3⟩ (by norm_num) (by norm_num)
    capX (by decide) (by decide) (fun k => String.mk (List.replicate k 'b'))
    hinj hsen (by rw [show CapConfig.pollInterval ⟨45, 5, 3⟩ = 5 from rfl, hrsc]; norm_num)
  simp only [show CapConfig.pollInterval ⟨45, 5, 3⟩ = (5 : ℚ) from rfl] at h
  refine ⟨h.1 2 (by omega), ?_⟩
  obtain ⟨r, hr, hns, hW⟩ := h.2.1 9 (by norm_num)
  exact ⟨r, hr, hns, hW⟩

/-- C6 (amended): a sentinel poll leaves both `last_content` and
`last_content_time` unchanged; only the clock and the call counter
advance.  Because the stability check compares the current time against
the unchanged `last_content_time`, stability progress is retained (and
keeps accruing in wall-clock terms) across sentinel polls rather than
being re-accumulated from zero. -/
theorem capture_response_sentinel_keeps_timer
    (cfg : CapConfig) (read : ℕ → Option String) (st : CapState)
    (hmr : 0 < cfg.maxRetries) (hread : read st.calls = some stillGenerating) :
    capStep cfg read st =
      .inl { st with time := st.time + cfg.pollInterval, calls := st.calls + 1 } := by
  unfold capStep
  rw [attemptRead_success read _ _ hmr hread]
  simp

/-- Witness for the C6 amended theorem at a concrete configuration and
state. -/
theorem capture_response_sentinel_keeps_timer_witness :
    capStep ⟨45, 5, 3⟩ (fun _ => some stillGenerating)
      { time := 10, calls := 2, lastContent := some capX, lastContentTime := some 0 } =
      .inl { time := 10 + 5, calls := 2 + 1,
             lastContent := some capX, lastContentTime := some 0 } :=
  capture_response_sentinel_keeps_timer ⟨45, 5, 3⟩ (fun _ => some stillGenerating)
    { time := 10, calls := 2, lastContent := some capX, lastContentTime := some 0 }
    (by norm_num) rfl

/-- Counterexample to C6 as stated: with `polling_interval = 1` the
derived stable-poll requirement is `requiredStableCount 1 = 5`, yet after
four consecutive sentinel polls a single unchanged poll at elapsed time 5
immediately yields the stable return, because the 5 seconds accumulated
since the content was first seen at time 0 are credited across the
sentinels.  Had the sentinel reset stability progress to zero, five
further unchanged polls would have been required after the last sentinel
before a stable return. -/
theorem capture_response_sentinel_reset_cex :
    captureRun ⟨45, 1, 3⟩
        (fun k => some (if 1 ≤ k ∧ k ≤ 4 then stillGenerating else capX)) 10 =
      some { outcome := .stable capX, endTime := 5, reads := 6 } ∧
    requiredStableCount 1 = 5 := by
  constructor
  · norm_num +decide [captureRun, captureGo, capStep, attemptRead, stillGenerating, capX,
      Option.getD, String.length, List.length_replicate]
  · rw [requiredStableCount]
    norm_num

/-!
Embedding of `HumanInput.type_text`, `HumanInput._type_single_char` and
`HumanInput._get_keyboard_neighbors` from
`src/_archive/python_cli_backup/src/human_input.py` (lines 310-445).

Only the keystroke actions matter here; sleeps and delays are dropped.
`_type_single_char` always delivers exactly its argument character
(upper-case and shifted characters are realized by holding shift and
pressing the unshifted key), so it is modelled as a single insertion.
Randomness is injected as one `TypoDecision` per loop iteration: the
outcome of `random.random() < typo_probability`, the outcome of
`random.choices([1, 2, 3], ...)`, and the index drawn by `random.choice`
over the neighbor string.
-/

/-- Keystroke as delivered to the focused input: a printable character or
a press of Backspace. -/
inductive KeyAction where
  | insert (c : Char)
  | backspace
  deriving DecidableEq

/-- The three typo branches of `type_text`: wrong key, double key, missed
key. -/
inductive TypoType where
  | wrongKey
  | doubleKey
  | missedKey
  deriving DecidableEq

/-- Injected randomness for one iteration of the `type_text` loop. -/
structure TypoDecision where
  makeTypo : Bool
  typoType : TypoType
  neighborChoice : ℕ
  deriving DecidableEq

instance : Inhabited TypoDecision := ⟨⟨false, .wrongKey, 0⟩⟩

/-- QWERTY adjacency table (`keyboard_layout` in
`_get_keyboard_neighbors`). -/
def keyboardLayout (c : Char) : Option (List Char) :=
  match c with
  | 'q' => some ['w', 'a', 's']
  | 'w' => some ['q', 'a', 's', 'e']
  | 'e' => some ['w', 's', 'd', 'r']
  | 'r' => some ['e', 'd', 'f', 't']
  | 't' => some ['r', 'f', 'g', 'y']
  | 'y' => some ['t', 'g', 'h', 'u']
  | 'u' => some ['y', 'h', 'j', 'i']
  | 'i' => some ['u', 'j', 'k', 'o']
  | 'o' => some ['i', 'k', 'l', 'p']
  | 'p' => some ['o', 'l']
  | 'a' => some ['q', 'w', 's', 'z']
  | 's' => some ['a', 'w', 'e', 'd', 'x', 'z']
  | 'd' => some ['s', 'e', 'r', 'f', 'c', 'x']
  | 'f' => some ['d', 'r', 't', 'g', 'v', 'c']
  | 'g' => some ['f', 't', 'y', 'h', 'b', 'v']
  | 'h' => some ['g', 'y', 'u', 'j', 'n', 'b']
  | 'j' => some ['h', 'u', 'i', 'k', 'm', 'n']
  | 'k' => some ['j', 'i', 'o', 'l', 'm']
  | 'l' => some ['k', 'o', 'p']
  | 'z' => some ['a', 's', 'x']
  | 'x' => some ['z', 's', 'd', 'c']
  | 'c' => some ['x', 'd', 'f', 'v']
  | 'v' => some ['c', 'f', 'g', 'b']
  | 'b' => some ['v', 'g', 'h', 'n']
  | 'n' => some ['b', 'h', 'j', 'm']
  | 'm' => some ['n', 'j', 'k']
  | ' ' => some ['b', 'n', 'm', ',']
  | _ => none

/-- `_get_keyboard_neighbors`: look the lower-cased character up in the
adjacency table, draw one neighbor (`random.choice`, modelled by an
injected index reduced modulo the number of neighbors), preserve case;
characters absent from the table come back unchanged. -/
def getKeyboardNeighbors (choice : ℕ) (c : Char) : Char :=
  match keyboardLayout c.toLower with
  | some ns =>
    let t := ns.getD (choice % ns.length) c
    if c.isUpper then t.toUpper else t
  | none => c

/-- Keystroke schedule of the `while i < len(text)` loop of `type_text`.
A wrong-key typo types a neighboring key, backspaces it and retypes the
intended character; a double-key typo types the character twice, advances
`i`, backspaces one copy, then types `text[i]` (the next character, when
one remains); a missed-key typo types nothing at first and then types the
still-current `text[i]`. -/
def typeTextGo (simulateTypos : Bool) : List Char → List TypoDecision → List KeyAction
  | [], _ => []
  | c :: rest, ds =>
    let d := ds.headD default
    if simulateTypos && d.makeTypo then
      match d.typoType with
      | .wrongKey =>
        .insert (getKeyboardNeighbors d.neighborChoice c) :: .backspace :: .insert c ::
          typeTextGo simulateTypos rest ds.tail
      | .doubleKey =>
        match rest with
        | [] => [.insert c, .insert c, .backspace]
        | c2 :: rest2 =>
          .insert c :: .insert c :: .backspace :: .insert c2 ::
            typeTextGo simulateTypos rest2 ds.tail
      | .missedKey => .insert c :: typeTextGo simulateTypos rest ds.tail
    else .insert c :: typeTextGo simulateTypos rest ds.tail

/-- `type_text`: empty text returns immediately, otherwise the loop
produces the schedule. -/
def typeText (simulateTypos : Bool) (text : List Char)
    (ds : List TypoDecision) : List KeyAction :=
  if text = [] then [] else typeTextGo simulateTypos text ds

/-- Effect of one keystroke on the focused input buffer: a character is
appended, Backspace removes the final character. -/
def applyKey (buf : List Char) : KeyAction → List Char
  | .insert c => buf ++ [c]
  | .backspace => buf.dropLast

/-- Replay a keystroke schedule against a buffer. -/
def applyKeys (buf : List Char) (as : List KeyAction) : List Char :=
  as.foldl applyKey buf

theorem applyKeys_cons (buf : List Char) (a : KeyAction) (as : List KeyAction) :
    applyKeys buf (a :: as) = applyKeys (applyKey buf a) as := rfl

theorem typeTextGo_reconstructs (simulateTypos : Bool) :
    ∀ (n : ℕ) (text : List Char) (ds : List TypoDecision) (buf : List Char),
      text.length ≤ n →
      applyKeys buf (typeTextGo simulateTypos text ds) = buf ++ text := by
  intro n
  induction n with
  | zero =>
    intro text ds buf hlen
    have : text = [] := List.eq_nil_of_length_eq_zero (by omega)
    subst this
    simp [typeTextGo, applyKeys]
  | succ n ih =>
    intro text ds buf hlen
    match text with
    | [] => simp [typeTextGo, applyKeys]
    | c :: rest =>
      rw [typeTextGo.eq_def]
      simp only []
      by_cases hd : simulateTypos && (ds.headD default).makeTypo
      · rw [if_pos hd]
        rcases htt : (ds.headD default).typoType with _ | _ | _
        · simp only [applyKeys_cons, applyKey, List.dropLast_concat]
          rw [ih rest ds.tail (buf ++ [c]) (by simpa using Nat.lt_succ_iff.mp hlen)]
          simp
        · match rest with
          | [] =>
            simp only [applyKeys_cons, applyKey, List.dropLast_concat]
            simp [applyKeys]
          | c2 :: rest2 =>
            simp only [applyKeys_cons, applyKey, List.dropLast_concat]
            rw [ih rest2 ds.tail (buf ++ [c] ++ [c2]) (by simp at hlen ⊢; omega)]
            simp
        · simp only [applyKeys_cons, applyKey]
          rw [ih rest ds.tail (buf ++ [c]) (by simpa using Nat.lt_succ_iff.mp hlen)]
          simp
      · rw [if_neg hd]
        simp only [applyKeys_cons, applyKey]
        rw [ih rest ds.tail (buf ++ [c]) (by simpa using Nat.lt_succ_iff.mp hlen)]
        simp

/-- C2: for every non-empty text and every outcome of the injected
randomness (typo or not, every typo type, every neighbor choice), the
keystroke schedule produced by `type_text`, replayed in order against an
initially empty buffer, reconstructs the text exactly. -/
theorem type_text_reconstructs (simulateTypos : Bool) (text : List Char)
    (ds : List TypoDecision) (hne : text ≠ []) :
    applyKeys [] (typeText simulateTypos text ds) = text := by
  rw [typeText, if_neg hne]
  simpa using typeTextGo_reconstructs simulateTypos text.length text ds [] le_rfl

/-- Witness for C2: typing "heyA" with a wrong-key typo on 'h', a
double-key typo on 'e' (which also consumes 'y'), and a missed-key typo
on 'A' still reconstructs "heyA". -/
theorem type_text_reconstructs_witness :
    applyKeys [] (typeText true ['h', 'e', 'y', 'A']
      [⟨true, .wrongKey, 2⟩, ⟨true, .doubleKey, 0⟩, ⟨true, .missedKey, 5⟩]) =
      ['h', 'e', 'y', 'A'] :=
  type_text_reconstructs true ['h', 'e', 'y', 'A']
    [⟨true, .wrongKey, 2⟩, ⟨true, .doubleKey, 0⟩, ⟨true, .missedKey, 5⟩] (by decide)

/-!
Model of Python JSON values and of the parts of Python semantics used by
the parsing pipelines of
`src/_archive/python_cli_backup/src/vision_detection.py` and
`src/_archive/python_cli_backup/src/qwen_processor.py`: truthiness,
`in`, subscription, `dict.get`, and the exceptions these raise on
ill-typed operands (all exception classes are collapsed into one error
value because every handler involved produces the same fallback result).
-/

/-- Python value as produced by `json.loads` (numbers restricted to
integers, which covers every coordinate value these pipelines consume). -/
inductive JValue where
  | jnull
  | jbool (b : Bool)
  | jnum (n : ℤ)
  | jstr (s : String)
  | jarr (xs : List JValue)
  | jobj (fields : List (String × JValue))

/-- Python dict lookup: with duplicate keys the later entry wins, as in a
dict built by repeated insertion. -/
def jobjFind (fields : List (String × JValue)) (key : String) : Option JValue :=
  (fields.reverse.find? (fun kv => kv.1 = key)).map (fun kv => kv.2)

/-- Leftmost index at which `pat` occurs as a contiguous run of `hay`
(`str.find` on a substring); `none` models Python's `-1`. -/
def findSub (hay pat : List Char) : Option ℕ :=
  match hay with
  | [] => if pat = [] then some 0 else none
  | c :: cs => if pat.isPrefixOf (c :: cs) then some 0 else (findSub cs pat).map (· + 1)

/-- Python `needle in haystack` on strings. -/
def pyContainsSub (hay pat : List Char) : Bool := (findSub hay pat).isSome

/-- Python `key in value`: key membership for dicts, element membership
for lists, substring test for strings, `TypeError` otherwise. -/
def pyIn (key : String) (v : JValue) : Except Unit Bool :=
  match v with
  | .jobj fields => .ok (fields.any (fun kv => kv.1 = key))
  | .jarr xs => .ok (xs.any (fun x => match x with | .jstr s => s = key | _ => false))
  | .jstr s => .ok (pyContainsSub s.data key.data)
  | _ => .error ()

/-- Python `value[key]` with a string key: dict lookup (`KeyError` when
absent), `TypeError` for every other operand. -/
def pyGet (v : JValue) (key : String) : Except Unit JValue :=
  match v with
  | .jobj fields =>
    match jobjFind fields key with
    | some x => .ok x
    | none => .error ()
  | _ => .error ()

/-- Python `value.get(key, default)`: only dicts have `.get`
(`AttributeError` otherwise). -/
def pyDictGet (v : JValue) (key : String) (dflt : JValue) : Except Unit JValue :=
  match v with
  | .jobj fields => .ok ((jobjFind fields key).getD dflt)
  | _ => .error ()

/-- Python truthiness of a JSON value. -/
def truthy : JValue → Bool
  | .jnull => false
  | .jbool b => b
  | .jnum n => n ≠ 0
  | .jstr s => !s.isEmpty
  | .jarr xs => !xs.isEmpty
  | .jobj fields => !fields.isEmpty

/-- JSON whitespace characters. -/
def isJsonWs (c : Char) : Bool := c = ' ' ∨ c = '\t' ∨ c = '\n' ∨ c = '\r'

/-- Drop leading JSON whitespace. -/
def dropJsonWs : List Char → List Char
  | [] => []
  | c :: cs => if isJsonWs c then dropJsonWs cs else c :: cs

/-- Leading decimal digits of a character list. -/
def spanDigits : List Char → List Char × List Char
  | [] => ([], [])
  | c :: cs =>
    if c.isDigit then
      let (ds, rest) := spanDigits cs
      (c :: ds, rest)
    else ([], c :: cs)

/-- Numeric value of a digit run. -/
def digitsToNat (ds : List Char) : ℕ :=
  ds.foldl (fun acc c => acc * 10 + (c.toNat - 48)) 0

/-- String literal body up to the closing quote; escape sequences are
outside the supported subset and fail the parse. -/
def parseStrBody : List Char → Option (List Char × List Char)
  | [] => none
  | c :: cs =>
    if c = '"' then some ([], cs)
    else if c = '\\' then none
    else (parseStrBody cs).map (fun p => (c :: p.1, p.2))

mutual

/-- Recursive-descent parser for the JSON subset these pipelines exercise
(null, booleans, integer numbers, escape-free strings, arrays, objects);
fuel bounds the recursion depth.  On this subset it agrees with Python's
`json.loads`. -/
def parseJValue : ℕ → List Char → Option (JValue × List Char)
  | 0, _ => none
  | fuel + 1, cs =>
    match dropJsonWs cs with
    | 'n' :: 'u' :: 'l' :: 'l' :: rest => some (.jnull, rest)
    | 't' :: 'r' :: 'u' :: 'e' :: rest => some (.jbool true, rest)
    | 'f' :: 'a' :: 'l' :: 's' :: 'e' :: rest => some (.jbool false, rest)
    | '"' :: rest => (parseStrBody rest).map (fun p => (.jstr (String.mk p.1), p.2))
    | '[' :: rest =>
      (match dropJsonWs rest with
       | ']' :: rest2 => some (.jarr [], rest2)
       | _ => (parseJArr fuel rest).map (fun p => (.jarr p.1, p.2)))
    | '{' :: rest =>
      (match dropJsonWs rest with
       | '}' :: rest2 => some (.jobj [], rest2)
       | _ => (parseJObj fuel rest).map (fun p => (.jobj p.1, p.2)))
    | '-' :: rest =>
      (match spanDigits rest with
       | ([], _) => none
       | (ds, rest2) => some (.jnum (-(digitsToNat ds : ℤ)), rest2))
    | c :: rest =>
      if c.isDigit then
        (match spanDigits (c :: rest) with
         | (ds, rest2) => some (.jnum (digitsToNat ds : ℤ), rest2))
      else none
    | [] => none

/-- Comma-separated array elements up to `]`. -/
def parseJArr : ℕ → List Char → Option (List JValue × List Char)
  | 0, _ => none
  | fuel + 1, cs =>
    match parseJValue fuel cs with
    | none => none
    | some (v, rest) =>
      match dropJsonWs rest with
      | ',' :: rest2 =>
        (parseJArr fuel rest2).map (fun p => (v :: p.1, p.2))
      | ']' :: rest2 => some ([v], rest2)
      | _ => none

/-- Comma-separated object members up to the closing brace. -/
def parseJObj : ℕ → List Char → Option (List (String × JValue) × List Char)
  | 0, _ => none
  | fuel + 1, cs =>
    match dropJsonWs cs with
    | '"' :: rest =>
      (match parseStrBody rest with
       | none => none
       | some (key, rest2) =>
         match dropJsonWs rest2 with
         | ':' :: rest3 =>
           (match parseJValue fuel rest3 with
            | none => none
            | some (v, rest4) =>
              match dropJsonWs rest4 with
              | ',' :: rest5 =>
                (parseJObj fuel rest5).map (fun p => ((String.mk key, v) :: p.1, p.2))
              | '}' :: rest5 => some ([(String.mk key, v)], rest5)
              | _ => none)
         | _ => none)
    | _ => none

end

/-- `json.loads` on the supported subset: parse one value and require
only whitespace to remain. -/
def jsonLoads (s : String) : Option JValue :=
  match parseJValue (2 * s.length + 2) s.data with
  | some (v, rest) => if dropJsonWs rest = [] then some v else none
  | none => none

/-!
Embedding of `VisionDetector.detect_elements`
(`src/_archive/python_cli_backup/src/vision_detection.py`, lines
160-385).  The inference call is abstracted as an injected
`Except Unit String` (its internal format fallbacks only influence which
response text comes back); the JSON decoder is a parameter `parser`
standing for `json.loads`, instantiable with `jsonLoads`.  A failed
parse of a regex or brace-span extract raises `ValueError`, which the
`except json.JSONDecodeError` clause does not catch, so it reaches the
outer `except Exception` handler, which returns `None` for every
requested element — as does any exception out of the result-processing
loop.
-/

/-- Opening curly brace character. -/
def openBrace : Char := Char.ofNat 123

/-- Closing curly brace character. -/
def closeBrace : Char := Char.ofNat 125

/-- Characters up to the first closing brace, with the remainder after
it. -/
def upToClose : List Char → Option (List Char × List Char)
  | [] => none
  | c :: cs =>
    if c = closeBrace then some ([], cs)
    else (upToClose cs).map (fun p => (c :: p.1, p.2))

theorem upToClose_length : ∀ (cs : List Char) (p : List Char × List Char),
    upToClose cs = some p → p.2.length < cs.length := by
  intro cs
  induction cs with
  | nil => intro p h; simp [upToClose] at h
  | cons c cs ih =>
    intro p h
    rw [upToClose] at h
    split at h
    · cases h; simp
    · rcases hu : upToClose cs with _ | q
      · rw [hu] at h; simp at h
      · rw [hu] at h
        simp only [Option.map_some', Option.some.injEq] at h
        have hq := ih q hu
        subst h
        simp only [List.length_cons]
        omega

/-- Fuel-driven scan of the non-greedy brace matches; the fuel only
needs to cover the list length because every step consumes at least one
character. -/
def braceMatchesGo : ℕ → List Char → List (List Char)
  | 0, _ => []
  | _ + 1, [] => []
  | fuel + 1, c :: cs =>
    if c = openBrace then
      match upToClose cs with
      | some p => (openBrace :: p.1 ++ [closeBrace]) :: braceMatchesGo fuel p.2
      | none => []
    else braceMatchesGo fuel cs

/-- Non-greedy brace matches, `re.findall` of the pattern
`open-brace .*? close-brace` with DOTALL: scanning left to right, each
opening brace is matched with the nearest closing brace after it, and
scanning resumes past the match. -/
def braceMatches (cs : List Char) : List (List Char) := braceMatchesGo cs.length cs

/-- `max(json_matches, key=len)`: the first longest entry. -/
def maxByLen : List (List Char) → List Char
  | [] => []
  | h :: t => t.foldl (fun best x => if best.length < x.length then x else best) h

/-- `str.find` of a single character; `none` models `-1`. -/
def strFind (cs : List Char) (target : Char) : Option ℕ :=
  match cs with
  | [] => none
  | c :: rest => if c = target then some 0 else (strFind rest target).map (· + 1)

/-- `str.rfind` of a single character; `none` models `-1`. -/
def strRfind (cs : List Char) (target : Char) : Option ℕ :=
  match cs with
  | [] => none
  | c :: rest =>
    match strRfind rest target with
    | some j => some (j + 1)
    | none => if c = target then some 0 else none

/-- The `response[json_start:json_end]` slice between the first opening
brace and the last closing brace, available exactly when
`json_start >= 0 and json_end > json_start` holds. -/
def braceSpan (cs : List Char) : Option (List Char) :=
  match strFind cs openBrace, strRfind cs closeBrace with
  | some i, some j => if i ≤ j then some ((cs.drop i).take (j + 1 - i)) else none
  | _, _ => none

/-- Python regex `\s` (ASCII subset). -/
def isPyWs (c : Char) : Bool :=
  c = ' ' ∨ c = '\t' ∨ c = '\n' ∨ c = '\r' ∨ c = Char.ofNat 11 ∨ c = Char.ofNat 12

/-- Drop leading regex whitespace. -/
def dropPyWs : List Char → List Char
  | [] => []
  | c :: cs => if isPyWs c then dropPyWs cs else c :: cs

/-- Match of the coordinate pattern (optional opening bracket, spaces,
digits, spaces, comma, spaces, digits) anchored at the head of the list;
yields the two digit groups.  When a bracket is present the
skip-the-bracket alternative of the optional quantifier can never
succeed, because a bracket is neither whitespace nor a digit, so the
match is deterministic. -/
def matchCoordAt (cs : List Char) : Option (ℕ × ℕ) :=
  let cs1 :=
    match cs with
    | c :: r => if c = '(' ∨ c = '[' then r else c :: r
    | [] => []
  let cs2 := dropPyWs cs1
  match spanDigits cs2 with
  | ([], _) => none
  | (d1, rest1) =>
    match dropPyWs rest1 with
    | ',' :: rest2 =>
      (match spanDigits (dropPyWs rest2) with
       | ([], _) => none
       | (d2, _) => some (digitsToNat d1, digitsToNat d2))
    | _ => none

/-- `re.search` of the coordinate pattern: leftmost match. -/
def searchCoord : List Char → Option (ℕ × ℕ)
  | [] => none
  | c :: cs =>
    match matchCoordAt (c :: cs) with
    | some r => some r
    | none => searchCoord cs

/-- Manual-reconstruction entry for one element: `found` is the
(case-insensitive) mention test, and the coordinates come from searching
the 200-character window of the original response after the mention for a
coordinate-shaped token pair. -/
def manualEntry (response : List Char) (element : String) : JValue :=
  let respLower := response.map Char.toLower
  let elemLower := element.data.map Char.toLower
  let coordinates : JValue :=
    match findSub respLower elemLower with
    | some pos =>
      (match searchCoord ((response.drop pos).take 200) with
       | some xy => .jarr [.jnum (xy.1 : ℤ), .jnum (xy.2 : ℤ)]
       | none => .jnull)
    | none => .jnull
  .jobj [("found", .jbool (findSub respLower elemLower).isSome),
         ("coordinates", coordinates),
         ("description", .jstr "Automatically extracted from text")]

/-- Dictionary-selection stage of `detect_elements`: when the non-greedy
regex finds brace matches, parse the longest one or raise; otherwise,
when a first-open-to-last-close span exists, parse it or raise;
otherwise build the manual-reconstruction dictionary. -/
def selectDict (parser : String → Option JValue) (elements : List String)
    (rcs : List Char) : Except Unit JValue :=
  match braceMatches rcs with
  | [] =>
    (match braceSpan rcs with
     | some sp =>
       (match parser (String.mk sp) with
        | some v => .ok v
        | none => .error ())
     | none => .ok (.jobj (elements.map (fun e => (e, manualEntry rcs e)))))
  | ms =>
    match parser (String.mk (maxByLen ms)) with
    | some v => .ok v
    | none => .error ()

/-- Result-processing loop body of `detect_elements` for one element:
membership test, `.get("found", False)` truthiness, `.get("coordinates")`
list-of-two check; each ill-typed operation raises. -/
def processElement (dr : JValue) (element : String) :
    Except Unit (Option (JValue × JValue)) := do
  let mem ← pyIn element dr
  if mem then
    let entry ← pyGet dr element
    let fnd ← pyDictGet entry "found" (.jbool false)
    if truthy fnd then
      let coords ← pyDictGet entry "coordinates" .jnull
      match coords with
      | .jarr [a, b] => pure (some (a, b))
      | _ => pure none
    else pure none
  else pure none

/-- Result-processing loop of `detect_elements` over all requested
elements; an exception aborts the loop. -/
def processAll (dr : JValue) :
    List String → Except Unit (List (String × Option (JValue × JValue)))
  | [] => .ok []
  | e :: es => do
    let v ← processElement dr e
    let rest ← processAll dr es
    pure ((e, v) :: rest)

/-- Result-processing with the surrounding handlers: any exception yields
`None` for every element. -/
def processResults (dr : JValue) (elements : List String) :
    List (String × Option (JValue × JValue)) :=
  match processAll dr elements with
  | .ok r => r
  | .error _ => elements.map (fun e => (e, none))

/-- `VisionDetector.detect_elements`: inference, dictionary selection and
result processing, with every exception path collapsing to `None` for
every requested element by the outer `except Exception` handler. -/
def detectElements (parser : String → Option JValue) (elements : List String)
    (infer : Except Unit String) : List (String × Option (JValue × JValue)) :=
  match infer with
  | .error _ => elements.map (fun e => (e, none))
  | .ok response =>
    match (do
        let dr ← selectDict parser elements response.data
        processAll dr elements : Except Unit _) with
    | .ok r => r
    | .error _ => elements.map (fun e => (e, none))

/-!
Embedding of `QwenVLProcessor._extract_json_from_response`,
`QwenVLProcessor.detect_ui_elements` and the two challenge detectors
(`QwenVLProcessor.detect_captcha`, `VisionDetector.detect_captcha`) from
`src/_archive/python_cli_backup/src/qwen_processor.py` (lines 246-384)
and `src/_archive/python_cli_backup/src/vision_detection.py` (lines
425-543).  Model inference is abstracted as an injected
`Except Unit String`; an `.error` models `_process_with_model` (or the
in-method generation code) raising.
-/

/-- `_extract_json_from_response`: parse the first-open-brace to
last-close-brace span; a decode error or a missing span yields the empty
dictionary. -/
def extractJson (parser : String → Option JValue) (response : String) : JValue :=
  match braceSpan response.data with
  | some sp =>
    (match parser (String.mk sp) with
     | some v => v
     | none => .jobj [])
  | none => .jobj []

/-- One UI element of the `detect_ui_elements` result: `center` (a
two-element coordinate pair, stored by the code as a tuple of the parsed
list) and `box` (the parsed four-element list), each optional. -/
structure UIField where
  center : Option (List JValue)
  box : Option (List JValue)

/-- Conversion of one element of the extracted dictionary in
`detect_ui_elements`: membership test on `results` (which raises on
numbers, booleans and null), subscription (which raises on lists and
strings), then guarded `center`/`box` extraction with `isinstance` and
length checks. -/
def convertUIField (results : JValue) (name : String) : Except Unit UIField := do
  let mem ← pyIn name results
  if mem then
    let v ← pyGet results name
    match v with
    | .jobj fields =>
      let center :=
        match jobjFind fields "center" with
        | some (.jarr xs) => if xs.length = 2 then some xs else none
        | _ => none
      let box :=
        match jobjFind fields "box" with
        | some (.jarr xs) => if xs.length = 4 then some xs else none
        | _ => none
      pure { center := center, box := box }
    | _ => pure { center := none, box := none }
  else pure { center := none, box := none }

/-- The all-`None` element map returned by `detect_ui_elements` on any
failure. -/
def uiDefault : List (String × UIField) :=
  [("input_field", { center := none, box := none }),
   ("send_button", { center := none, box := none }),
   ("response_area", { center := none, box := none })]

/-- `QwenVLProcessor.detect_ui_elements`: inference, JSON extraction and
per-element conversion; any exception on the way yields the all-`None`
map of the same three keys. -/
def detectUIElements (parser : String → Option JValue) (infer : Except Unit String) :
    List (String × UIField) :=
  match infer with
  | .error _ => uiDefault
  | .ok response =>
    let results := extractJson parser response
    match (do
        let f1 ← convertUIField results "input_field"
        let f2 ← convertUIField results "send_button"
        let f3 ← convertUIField results "response_area"
        pure [("input_field", f1), ("send_button", f2), ("response_area", f3)] :
          Except Unit (List (String × UIField))) with
    | .ok r => r
    | .error _ => uiDefault

/-- `QwenVLProcessor.detect_captcha`: the raw `captcha_detected` and
`description` values from the extracted dictionary (no boolean coercion
in the code); inference failure or an ill-typed `.get` yields the
fail-open pair. -/
def qwenDetectCaptcha (parser : String → Option JValue) (infer : Except Unit String) :
    JValue × JValue :=
  match infer with
  | .error _ => (.jbool false, .jstr "Detection error")
  | .ok response =>
    match (do
        let results := extractJson parser response
        let cd ← pyDictGet results "captcha_detected" (.jbool false)
        let desc ← pyDictGet results "description" (.jstr "")
        pure (cd, desc) : Except Unit (JValue × JValue)) with
    | .ok r => r
    | .error _ => (.jbool false, .jstr "Detection error")

/-- Lower-cased character list of a Python string (`str.lower`). -/
def pyLower (s : String) : List Char := s.data.map Char.toLower

/-- Keyword classification of `VisionDetector.detect_captcha`: `"yes"`
within the first 20 characters of the lower-cased response, or
`"captcha"`, `"verification"` or `"robot"` anywhere in it, or both
`"human"` and `"challenge"` anywhere in it. -/
def classifyCaptcha (response : String) : Bool :=
  let rl := pyLower response
  pyContainsSub (rl.take 20) "yes".data ||
  pyContainsSub rl "captcha".data ||
  pyContainsSub rl "verification".data ||
  pyContainsSub rl "robot".data ||
  (pyContainsSub rl "human".data && pyContainsSub rl "challenge".data)

/-- `VisionDetector.detect_captcha`: classify the inference response;
any exception in the generation path yields the fail-open `False`. -/
def visionDetectCaptcha (infer : Except Unit String) : Bool :=
  match infer with
  | .error _ => false
  | .ok response => classifyCaptcha response

/-- Modelled from the spec (for claim C5 only; `detect_elements` is the
source-translated definition): the four-tier parsing pipeline the
specification describes — (1) direct JSON parse of the entire response,
(2) largest brace-delimited regex extract, (3) first-open-brace to
last-close-brace span, (4) manual per-element reconstruction — stopping
at the first success, followed by the same result processing as the
code, for comparability. -/
def specFourTierDict (parser : String → Option JValue) (elements : List String)
    (response : String) : JValue :=
  ((parser response).orElse (fun _ =>
    (match braceMatches response.data with
     | [] => none
     | ms => parser (String.mk (maxByLen ms))).orElse (fun _ =>
      (braceSpan response.data).bind (fun sp => parser (String.mk sp))))).getD
    (.jobj (elements.map (fun e => (e, manualEntry response.data e))))

/-- Modelled from the spec (claim C5): four-tier parse, then the shared
result-processing stage. -/
def specFourTier (parser : String → Option JValue) (elements : List String)
    (response : String) : List (String × Option (JValue × JValue)) :=
  processResults (specFourTierDict parser elements response) elements

/-- Modelled from the spec (claim C8): the affirmative keyword set of the
challenge detector matched within the first `n` characters of the
lower-cased response. -/
def specKeywordInPrefix (n : ℕ) (response : String) : Bool :=
  let pre := (pyLower response).take n
  pyContainsSub pre "yes".data ||
  pyContainsSub pre "captcha".data ||
  pyContainsSub pre "verification".data ||
  pyContainsSub pre "robot".data ||
  (pyContainsSub pre "human".data && pyContainsSub pre "challenge".data)

theorem map_fst_none (elements : List String) :
    (elements.map (fun e => (e, (none : Option (JValue × JValue))))).map Prod.fst =
      elements := by
  induction elements with
  | nil => rfl
  | cons e es ih => simp [ih]

theorem processAll_keys (dr : JValue) :
    ∀ (elements : List String) (r : List (String × Option (JValue × JValue))),
      processAll dr elements = .ok r → r.map Prod.fst = elements := by
  intro elements
  induction elements with
  | nil =>
    intro r h
    rw [processAll] at h
    cases h
    rfl
  | cons e es ih =>
    intro r h
    rw [processAll] at h
    rcases hv : processElement dr e with err | v
    · rw [hv] at h
      simp [bind, Except.bind] at h
    · rw [hv] at h
      rcases hrest : processAll dr es with err | rs
      · rw [hrest] at h
        simp [bind, Except.bind] at h
      · rw [hrest] at h
        simp only [bind, Except.bind, pure, Except.pure, Except.ok.injEq] at h
        subst h
        simp [ih rs hrest]

/-- C3: for every requested element list, every injected JSON decoder and
every inference outcome — a raised inference exception or arbitrary,
possibly malformed response text — `detect_elements` returns a result
mapping exactly the requested elements, in order, each to either a
coordinate pair or `None`; every exception path degrades to `None`
entries rather than escaping. -/
theorem detect_elements_never_raises (parser : String → Option JValue)
    (elements : List String) (infer : Except Unit String) :
    (detectElements parser elements infer).map Prod.fst = elements := by
  unfold detectElements
  rcases infer with e | response
  · exact map_fst_none elements
  · rcases hsel : selectDict parser elements response.data with e | dr
    · simp only [bind, Except.bind, hsel]
      exact map_fst_none elements
    · simp only [bind, Except.bind, hsel]
      rcases hpa : processAll dr elements with e | r
      · exact map_fst_none elements
      · exact processAll_keys dr elements r hpa

/-- Concrete localization response whose entire text is valid JSON
declaring one found element with coordinates. -/
def cexResponse : String :=
  "\x7b\"btn\": \x7b\"found\": true, \"coordinates\": [10, 20]\x7d\x7d"

set_option maxRecDepth 8000 in
/-- Counterexample to C5 as stated: on a response that is a valid JSON
object in its entirety, the code's first applied strategy — non-greedy
regex extraction of brace spans, longest match first — produces an
unbalanced extract whose parse failure aborts the whole pipeline with
every element unresolved, although a direct JSON parse of the entire
response (tier 1 of the claimed order) succeeds and yields coordinates.
So `detect_elements` neither starts with a direct parse of the whole
response nor falls through to later strategies when an earlier parse
fails. -/
theorem detect_elements_four_tier_cex :
    detectElements jsonLoads ["btn"] (.ok cexResponse) = [("btn", none)] ∧
    specFourTier jsonLoads ["btn"] cexResponse =
      [("btn", some (.jnum 10, .jnum 20))] ∧
    jsonLoads cexResponse =
      some (.jobj [("btn", .jobj [("found", .jbool true),
        ("coordinates", .jarr [.jnum 10, .jnum 20])])]) :=
  ⟨rfl, rfl, rfl⟩

theorem strRfind_eq_none (t : Char) :
    ∀ (cs : List Char), t ∉ cs → strRfind cs t = none := by
  intro cs
  induction cs with
  | nil => intro h; rfl
  | cons c cs ih =>
    intro h
    rw [strRfind, ih (fun hm => h (List.mem_cons_of_mem c hm))]
    rw [if_neg (fun he => h (by rw [← he]; exact List.mem_cons_self c cs))]

theorem upToClose_none_not_mem :
    ∀ (cs : List Char), upToClose cs = none → closeBrace ∉ cs := by
  intro cs
  induction cs with
  | nil => intro _ hm; simp at hm
  | cons c cs ih =>
    intro h hm
    rw [upToClose] at h
    split at h
    · simp at h
    · rename_i hne
      rcases hu : upToClose cs with _ | p
      · rcases List.mem_cons.mp hm with h1 | h1
        · exact hne h1.symm
        · exact ih hu h1
      · rw [hu] at h
        simp at h

theorem strRfind_cons_some (c t : Char) {cs : List Char} {j : ℕ}
    (h : strRfind cs t = some j) : strRfind (c :: cs) t = some (j + 1) := by
  rw [strRfind, h]

theorem strRfind_cons_none (c t : Char) {cs : List Char}
    (h : strRfind cs t = none) :
    strRfind (c :: cs) t = if c = t then some 0 else none := by
  rw [strRfind, h]

theorem braceMatchesGo_nil_braceSpan :
    ∀ (fuel : ℕ) (cs : List Char), cs.length ≤ fuel →
      braceMatchesGo fuel cs = [] → braceSpan cs = none := by
  intro fuel
  induction fuel with
  | zero =>
    intro cs hlen _
    have hnil : cs = [] := List.eq_nil_of_length_eq_zero (by omega)
    subst hnil
    rfl
  | succ fuel ih =>
    intro cs hlen h
    match cs with
    | [] => rfl
    | c :: cs =>
      rw [braceMatchesGo] at h
      by_cases hob : c = openBrace
      · rw [if_pos hob] at h
        rcases hu : upToClose cs with _ | p
        · have hnm := upToClose_none_not_mem cs hu
          have hr : strRfind cs closeBrace = none := strRfind_eq_none closeBrace cs hnm
          have hrc : strRfind (c :: cs) closeBrace = none := by
            rw [strRfind_cons_none c closeBrace hr]
            rw [if_neg (by rw [hob]; decide)]
          unfold braceSpan
          rw [hrc]
          rcases strFind (c :: cs) openBrace with _ | i <;> rfl
        · rw [hu] at h
          simp at h
      · rw [if_neg hob] at h
        have hspan := ih cs (by simp only [List.length_cons] at hlen; omega) h
        have hfc : strFind (c :: cs) openBrace = (strFind cs openBrace).map (· + 1) := by
          rw [strFind, if_neg hob]
        unfold braceSpan at hspan ⊢
        rcases hf : strFind cs openBrace with _ | i
        · rw [hfc, hf]
          simp only [Option.map_none']
        · rw [hf] at hspan
          rw [hfc, hf]
          simp only [Option.map_some']
          rcases hrf : strRfind cs closeBrace with _ | j
          · by_cases hcb : c = closeBrace
            · rw [strRfind_cons_none c closeBrace hrf, if_pos hcb]
              simp
            · rw [strRfind_cons_none c closeBrace hrf, if_neg hcb]
          · rw [hrf] at hspan
            rw [strRfind_cons_some c closeBrace hrf]
            by_cases hij : i ≤ j
            · exfalso
              simp [hij] at hspan
            · have hij1 : ¬ (i + 1 ≤ j + 1) := by omega
              simp [hij1]

/-- C5 (amended): the parsing of `detect_elements` proceeds as follows —
when the non-greedy brace regex finds matches, the longest match is
parsed and a parse failure resolves every element to `None` without
attempting any further strategy; when the regex finds matches and the
parse succeeds, its value alone feeds result processing; and when the
regex finds no match the manual per-element reconstruction feeds result
processing (the first-brace-to-last-brace tier never fires, because no
such span exists once the regex found nothing).  There is no tier that
parses the entire response directly. -/
theorem detect_elements_parse_tiers (parser : String → Option JValue)
    (elements : List String) (response : String) :
    (braceMatches response.data ≠ [] →
      parser (String.mk (maxByLen (braceMatches response.data))) = none →
      detectElements parser elements (.ok response) =
        elements.map (fun e => (e, none))) ∧
    (∀ v, braceMatches response.data ≠ [] →
      parser (String.mk (maxByLen (braceMatches response.data))) = some v →
      detectElements parser elements (.ok response) = processResults v elements) ∧
    (braceMatches response.data = [] →
      detectElements parser elements (.ok response) =
        processResults
          (.jobj (elements.map (fun e => (e, manualEntry response.data e))))
          elements) := by
  have hfin : ∀ dr, selectDict parser elements response.data = .ok dr →
      detectElements parser elements (.ok response) = processResults dr elements := by
    intro dr hsel
    unfold detectElements
    simp only [bind, Except.bind, hsel, processResults]
  refine ⟨?_, ?_, ?_⟩
  · intro hne hp
    have hsel : selectDict parser elements response.data = .error () := by
      unfold selectDict
      rcases hbm : braceMatches response.data with _ | ⟨m, ms⟩
      · exact absurd hbm hne
      · simp only []
        rw [hbm] at hp
        rw [hp]
    unfold detectElements
    simp only [bind, Except.bind, hsel]
  · intro v hne hp
    refine hfin v ?_
    unfold selectDict
    rcases hbm : braceMatches response.data with _ | ⟨m, ms⟩
    · exact absurd hbm hne
    · simp only []
      rw [hbm] at hp
      rw [hp]
  · intro hnil
    refine hfin _ ?_
    unfold selectDict
    rw [hnil]
    have hspan : braceSpan response.data = none :=
      braceMatchesGo_nil_braceSpan response.data.length response.data le_rfl hnil
    rw [hspan]

set_option maxRecDepth 8000 in
/-- Witness for the C5 amended theorem: on `cexResponse` the regex tier
finds a match, the parse of the longest match fails, and every element
resolves to `None`; on plain prose with no braces the manual
reconstruction feeds result processing. -/
theorem detect_elements_parse_tiers_witness :
    detectElements jsonLoads ["btn"] (.ok cexResponse) =
      ["btn"].map (fun e => (e, none)) ∧
    detectElements jsonLoads ["send button"]
        (.ok "I can see the send button at (1600, 940) in the corner") =
      processResults
        (.jobj (["send button"].map (fun e =>
          (e, manualEntry "I can see the send button at (1600, 940) in the corner".data e))))
        ["send button"] :=
  ⟨(detect_elements_parse_tiers jsonLoads ["btn"] cexResponse).1
      (by decide) (by rfl),
   (detect_elements_parse_tiers jsonLoads ["send button"]
      "I can see the send button at (1600, 940) in the corner").2.2 (by decide)⟩

/-- C7: both challenge detectors observe the fail-open contract — when
the inference client raises, the exception is absorbed and the detector
reports no challenge (`False`), for every injected JSON decoder. -/
theorem detect_captcha_fail_open (parser : String → Option JValue) :
    visionDetectCaptcha (.error ()) = false ∧
    qwenDetectCaptcha parser (.error ()) = (.jbool false, .jstr "Detection error") :=
  ⟨rfl, rfl⟩

/-- Concrete challenge-detector response with the keyword far beyond any
reading of the first roughly twenty characters. -/
def cexCaptchaResponse : String := String.mk (List.replicate 100 'x') ++ " captcha"

set_option maxRecDepth 8000 in
/-- Counterexample to C8 as stated: a response whose first 90 characters
contain no keyword of the set is still classified as Present, because
only `"yes"` is restricted to the first 20 characters — `"captcha"`,
`"verification"`, `"robot"` and the `"human"`/`"challenge"` pair are
matched against the entire response. -/
theorem detect_captcha_prefix_cex :
    classifyCaptcha cexCaptchaResponse = true ∧
    specKeywordInPrefix 20 cexCaptchaResponse = false ∧
    specKeywordInPrefix 40 cexCaptchaResponse = false ∧
    specKeywordInPrefix 90 cexCaptchaResponse = false :=
  ⟨by decide, by decide, by decide, by decide⟩

theorem pyContainsSub_iff (pat : List Char) :
    ∀ (hay : List Char), pyContainsSub hay pat = true ↔ pat <:+: hay := by
  intro hay
  induction hay with
  | nil =>
    unfold pyContainsSub
    rw [findSub]
    constructor
    · intro h
      split at h
      · rename_i hp; subst hp; exact List.infix_rfl
      · simp at h
    · intro h
      rw [List.infix_nil] at h
      subst h
      simp
  | cons c cs ih =>
    unfold pyContainsSub at ih ⊢
    rw [findSub]
    by_cases hp : pat.isPrefixOf (c :: cs)
    · rw [if_pos hp]
      simp only [Option.isSome_some, true_iff]
      exact (List.isPrefixOf_iff_prefix.mp hp).isInfix
    · rw [if_neg hp]
      rw [List.infix_cons_iff]
      constructor
      · intro h
        rcases hf : findSub cs pat with _ | i
        · rw [hf] at h; simp at h
        · exact .inr (ih.mp (by rw [hf]; rfl))
      · rintro (h | h)
        · exact absurd (List.isPrefixOf_iff_prefix.mpr h) hp
        · rcases hf : findSub cs pat with _ | i
          · rw [hf] at ih
            simp only [Option.isSome_none, Bool.false_eq_true, false_iff] at ih
            exact absurd h ih
          · simp

/-- C8 (amended): the detector classifies the response as Present if and
only if `"yes"` occurs within the first 20 characters of the lower-cased
response, or `"captcha"`, `"verification"` or `"robot"` occurs anywhere
in it, or `"human"` and `"challenge"` both occur anywhere in it. -/
theorem detect_captcha_keyword_iff (response : String) :
    classifyCaptcha response = true ↔
      ("yes".data <:+: (pyLower response).take 20 ∨
       "captcha".data <:+: pyLower response ∨
       "verification".data <:+: pyLower response ∨
       "robot".data <:+: pyLower response ∨
       ("human".data <:+: pyLower response ∧ "challenge".data <:+: pyLower response)) := by
  unfold classifyCaptcha
  simp only [Bool.or_eq_true, Bool.and_eq_true, pyContainsSub_iff]
  tauto

/-- Shape constraint of one `detect_ui_elements` element: a present
`center` has exactly two entries, a present `box` exactly four. -/
def uiFieldShapeOk (f : UIField) : Bool :=
  (match f.center with
   | some xs => xs.length == 2
   | none => true) &&
  (match f.box with
   | some xs => xs.length == 4
   | none => true)

theorem uiPart_shape (n : ℕ) (o : Option JValue) :
    (match (match o with
            | some (JValue.jarr xs) => if xs.length = n then some xs else none
            | _ => none : Option (List JValue)) with
     | some xs => xs.length == n
     | none => true) = true := by
  rcases o with _ | v
  · rfl
  · rcases v with _ | b | k | st | xs | fs
    · rfl
    · rfl
    · rfl
    · rfl
    · by_cases hl : xs.length = n
      · simp [hl]
      · simp [hl]
    · rfl

theorem convertUIField_shape (results : JValue) (name : String) (f : UIField)
    (h : convertUIField results name = .ok f) : uiFieldShapeOk f = true := by
  unfold convertUIField at h
  rcases hm : pyIn name results with e | mem
  · rw [hm] at h; simp [bind, Except.bind] at h
  · rw [hm] at h
    simp only [bind, Except.bind] at h
    by_cases hmem : mem
    · rw [if_pos hmem] at h
      rcases hg : pyGet results name with e | v
      · rw [hg] at h; simp at h
      · rw [hg] at h
        rcases v with _ | _ | _ | _ | _ | fields
        · simp only [pure, Except.pure, Except.ok.injEq] at h
          subst h; rfl
        · simp only [pure, Except.pure, Except.ok.injEq] at h
          subst h; rfl
        · simp only [pure, Except.pure, Except.ok.injEq] at h
          subst h; rfl
        · simp only [pure, Except.pure, Except.ok.injEq] at h
          subst h; rfl
        · simp only [pure, Except.pure, Except.ok.injEq] at h
          subst h; rfl
        · simp only [pure, Except.pure, Except.ok.injEq] at h
          subst h
          unfold uiFieldShapeOk
          simp only []
          rw [uiPart_shape 2 (jobjFind fields "center"), uiPart_shape 4 (jobjFind fields "box")]
          rfl
    · rw [if_neg hmem] at h
      simp only [pure, Except.pure, Except.ok.injEq] at h
      subst h; rfl

/-- C10: on every execution path — inference failure, decode failure,
and arbitrary decoded values — `detect_ui_elements` returns exactly the
keys `input_field`, `send_button` and `response_area` in order, each
with a `center` that is absent or a two-entry coordinate pair and a
`box` that is absent or a four-entry list. -/
theorem detect_ui_elements_shape (parser : String → Option JValue)
    (infer : Except Unit String) :
    (detectUIElements parser infer).map Prod.fst =
      ["input_field", "send_button", "response_area"] ∧
    (detectUIElements parser infer).all (fun p => uiFieldShapeOk p.2) = true := by
  unfold detectUIElements
  rcases infer with e | response
  · exact ⟨rfl, rfl⟩
  · rcases h1 : convertUIField (extractJson parser response) "input_field" with e | f1
    · simp only [bind, Except.bind, h1]
      exact ⟨rfl, rfl⟩
    · rcases h2 : convertUIField (extractJson parser response) "send_button" with e | f2
      · simp only [bind, Except.bind, h1, h2]
        exact ⟨rfl, rfl⟩
      · rcases h3 : convertUIField (extractJson parser response) "response_area" with e | f3
        · simp only [bind, Except.bind, h1, h2, h3]
          exact ⟨rfl, rfl⟩
        · simp only [bind, Except.bind, h1, h2, h3, pure, Except.pure]
          refine ⟨rfl, ?_⟩
          simp only [List.all_cons, List.all_nil, Bool.and_true]
          rw [convertUIField_shape _ _ _ h1, convertUIField_shape _ _ _ h2,
            convertUIField_shape _ _ _ h3]
          rfl

/-!
Embedding of `HumanInput.move_mouse`, `HumanInput._generate_bezier_points`
and `HumanInput._calculate_bezier_point` from
`src/_archive/python_cli_backup/src/human_input.py` (lines 50-241).

Coordinates are real numbers.  Randomness is injected as a tape
`rnd : Nat -> Real` of values in `[0, 1]`, with `random.uniform(a, b)`
realized as `a + (b - a) * r`; tape indices are assigned statically in
the order the source draws them (index 0 for the duration perturbation,
indices `1 + 3i .. 3 + 3i` for control point `i`, two indices per loop
iteration starting at `3 * cpc + 1`, then the overshoot block).  The
instance field `self.jitter_amount` is the parameter `jit`.  Time is
idealized: computation is instantaneous and each iteration's
`time.time()` reading equals the scheduled sleep target, so iteration
`i >= 2` of the sampling loop sees `elapsed = (i / steps) * duration`
and iteration 1 sees `elapsed = 0`; the loop's break on
`elapsed >= duration` makes iteration `i` emit a sample exactly when
`elapsed(i) < duration`.
-/

noncomputable section

/-- `random.uniform(a, b)` from one tape value. -/
def uniform (a b r : ℝ) : ℝ := a + (b - a) * r

/-- Euclidean distance computed by `math.sqrt(dx*dx + dy*dy)`. -/
def pyDist (a b : ℝ × ℝ) : ℝ := Real.sqrt ((b.1 - a.1) ^ 2 + (b.2 - a.2) ^ 2)

/-- `_generate_bezier_points`: the start point, `cpc` randomly displaced
control points (perpendicular offset scaled by the distance, a
sinusoidal profile along the path, and a random rotation of the offset
direction), and the end point. -/
def generateBezierPoints (rnd : ℕ → ℝ) (start stop : ℝ × ℝ) (cpc : ℕ) :
    List (ℝ × ℝ) :=
  let dx := stop.1 - start.1
  let dy := stop.2 - start.2
  let distance := Real.sqrt (dx ^ 2 + dy ^ 2)
  let n : ℝ × ℝ := if distance > 0 then (dx / distance, dy / distance) else (1, 0)
  let perpx := -n.2
  let perpy := n.1
  let ctrl := (List.range cpc).map (fun (i : ℕ) =>
    let t0 := ((i : ℕ) + 1 : ℝ) / ((cpc : ℕ) + 1 : ℝ)
    let t1 := t0 * uniform 0.8 1.2 (rnd (1 + 3 * i))
    let t := max 0.1 (min 0.9 t1)
    let bx := start.1 + t * dx
    let by0 := start.2 + t * dy
    let od := distance * uniform 0.1 0.4 (rnd (2 + 3 * i)) * Real.sin (Real.pi * t)
    let ang := uniform (-0.5) 0.5 (rnd (3 + 3 * i)) * Real.pi
    let ox := Real.cos ang * perpx - Real.sin ang * perpy
    let oy := Real.sin ang * perpx + Real.cos ang * perpy
    (bx + od * ox, by0 + od * oy))
  start :: ctrl ++ [stop]

/-- One level of `_calculate_bezier_point`: interpolate each adjacent
pair of points at parameter `t`. -/
def deCasteljauStep (t : ℝ) : List (ℝ × ℝ) → List (ℝ × ℝ)
  | p :: q :: rest =>
    ((1 - t) * p.1 + t * q.1, (1 - t) * p.2 + t * q.2) ::
      deCasteljauStep t (q :: rest)
  | _ => []

theorem deCasteljauStep_length (t : ℝ) :
    ∀ l : List (ℝ × ℝ), (deCasteljauStep t l).length = l.length - 1 := by
  intro l
  match l with
  | [] => rfl
  | [p] => rfl
  | p :: q :: rest =>
    rw [deCasteljauStep]
    simp only [List.length_cons]
    rw [deCasteljauStep_length t (q :: rest)]
    simp

/-- `_calculate_bezier_point`, recursing until one point remains (the
empty case is unreachable: the source always passes a list containing at
least the start point). -/
def calculateBezierPoint (t : ℝ) : List (ℝ × ℝ) → ℝ × ℝ
  | [] => (0, 0)
  | [p] => p
  | p :: q :: rest => calculateBezierPoint t (deCasteljauStep t (p :: q :: rest))
termination_by l => l.length
decreasing_by
  rw [deCasteljauStep_length]
  simp only [List.length_cons]
  omega

/-- Smoothstep-style easing applied to normalized time. -/
def easeInOut (tl : ℝ) : ℝ :=
  if tl < 0.5 then tl * tl * (3 - 2 * tl)
  else 0.5 + (tl - 0.5) * (1 - (tl - 0.5)) * 2

/-- Movement duration: the override when given, otherwise the
log-distance law perturbed by the tape and clamped to `[0.3, 2.0]`. -/
def moveDuration (rnd : ℕ → ℝ) (distance : ℝ) (dOpt : Option ℝ) : ℝ :=
  match dOpt with
  | some d => d
  | none =>
    let base := 0.3 + 0.15 * Real.logb 2 (1 + distance / 100)
    max 0.3 (min 2.0 (base * uniform 0.9 1.1 (rnd 0)))

/-- `max(2, min(5, int(distance / 300) + 1))`. -/
def controlPointsCount (distance : ℝ) : ℕ :=
  max 2 (min 5 (⌊distance / 300⌋ + 1).toNat)

/-- `max(20, min(150, int(distance / 5)))`. -/
def moveSteps (distance : ℝ) : ℕ :=
  max 20 (min 150 ⌊distance / 5⌋.toNat)

/-- Idealized elapsed time at the start of loop iteration `i`. -/
def elapsedAt (duration : ℝ) (steps i : ℕ) : ℝ :=
  if i = 1 then 0 else (i : ℝ) / (steps : ℝ) * duration

/-- Normalized time parameter of iteration `i`. -/
def tLinear (duration : ℝ) (steps i : ℕ) : ℝ :=
  elapsedAt duration steps i / duration

/-- The pointer position delivered by iteration `i`: the curve point at
the eased parameter plus lateral jitter scaled by `4 t (1 - t)`. -/
def samplePoint (jit : ℝ) (rnd : ℕ → ℝ) (points : List (ℝ × ℝ)) (cpc : ℕ)
    (duration : ℝ) (steps i : ℕ) : ℝ × ℝ :=
  let t := easeInOut (tLinear duration steps i)
  let p := calculateBezierPoint t points
  let jf := jit * 4 * t * (1 - t)
  (p.1 + uniform (-jf) jf (rnd (3 * cpc + 1 + 2 * (i - 1))) * 5,
   p.2 + uniform (-jf) jf (rnd (3 * cpc + 1 + 2 * (i - 1) + 1)) * 5)

/-- The sampling loop `for i in range(1, steps + 1)`: iteration `i`
emits a sample when its elapsed time is still below the duration. -/
def moveSamples (jit : ℝ) (rnd : ℕ → ℝ) (points : List (ℝ × ℝ)) (cpc : ℕ)
    (duration : ℝ) (steps : ℕ) : List (ℝ × ℝ) :=
  (List.range steps).filterMap (fun k =>
    if elapsedAt duration steps (k + 1) < duration
    then some (samplePoint jit rnd points cpc duration steps (k + 1))
    else none)

/-- `move_mouse`: the list of pointer positions delivered to
`pyautogui.moveTo`/`moveRel` in order, paired with the movement duration.
Distance below 5 short-circuits to a direct move of fixed duration 0.1;
`humanize=False` moves directly with the override or 0.5; otherwise the
curve samples, the exact final `moveTo(x, y)`, and — on a tape value
below 0.3 — the overshoot tail `moveRel(tiny, tiny)` followed by a final
corrective `moveTo(x, y)`. -/
def moveMouse (jit : ℝ) (rnd : ℕ → ℝ) (cur target : ℝ × ℝ) (dOpt : Option ℝ)
    (humanize : Bool) : List (ℝ × ℝ) × ℝ :=
  let distance := pyDist cur target
  if distance < 5 then ([target], 0.1)
  else if ¬ humanize then ([target], dOpt.getD 0.5)
  else
    let duration := moveDuration rnd distance dOpt
    let cpc := controlPointsCount distance
    let points := generateBezierPoints rnd cur target cpc
    let steps := moveSteps distance
    let samples := moveSamples jit rnd points cpc duration steps
    let oBase := 3 * cpc + 1 + 2 * (steps - 1)
    (samples ++ [target] ++
      (if rnd oBase < 0.3 then
        let tiny := uniform (-3) 3 (rnd (oBase + 2))
        [(target.1 + tiny, target.2 + tiny), target]
      else []), duration)

/-- Screen membership of a pointer position. -/
def inScreen (w h : ℝ) (p : ℝ × ℝ) : Prop :=
  0 ≤ p.1 ∧ p.1 ≤ w ∧ 0 ≤ p.2 ∧ p.2 ≤ h

end

theorem calculateBezierPoint_zero :
    ∀ (n : ℕ) (l : List (ℝ × ℝ)) (p : ℝ × ℝ), l.length ≤ n →
      calculateBezierPoint 0 (p :: l) = p := by
  intro n
  induction n with
  | zero =>
    intro l p hlen
    have hnil : l = [] := List.eq_nil_of_length_eq_zero (by omega)
    subst hnil
    rw [calculateBezierPoint]
  | succ n ih =>
    intro l p hlen
    match l with
    | [] => rw [calculateBezierPoint]
    | q :: rest =>
      rw [calculateBezierPoint, deCasteljauStep]
      have hp : ((1 - (0:ℝ)) * p.1 + 0 * q.1, (1 - (0:ℝ)) * p.2 + 0 * q.2) = p := by
        apply Prod.ext <;> simp
      rw [hp]
      refine ih (deCasteljauStep 0 (q :: rest)) p ?_
      rw [deCasteljauStep_length]
      simp only [List.length_cons] at hlen ⊢
      omega

theorem deCasteljauStep_const_snd (t c : ℝ) :
    ∀ (l : List (ℝ × ℝ)), (∀ q ∈ l, q.2 = c) →
      ∀ q ∈ deCasteljauStep t l, q.2 = c := by
  intro l
  match l with
  | [] => intro _ q hq; simp [deCasteljauStep] at hq
  | [p] => intro _ q hq; simp [deCasteljauStep] at hq
  | p :: q0 :: rest =>
    intro hall q hq
    rw [deCasteljauStep] at hq
    rcases List.mem_cons.mp hq with h1 | h1
    · subst h1
      have hp := hall p (by simp)
      have hq0 := hall q0 (by simp)
      simp only []
      rw [hp, hq0]
      ring
    · exact deCasteljauStep_const_snd t c (q0 :: rest)
        (fun x hx => hall x (List.mem_cons_of_mem p hx)) q h1

theorem calculateBezierPoint_const_snd (c : ℝ) :
    ∀ (n : ℕ) (t : ℝ) (l : List (ℝ × ℝ)), l ≠ [] → l.length ≤ n →
      (∀ q ∈ l, q.2 = c) → (calculateBezierPoint t l).2 = c := by
  intro n
  induction n with
  | zero =>
    intro t l hne hlen _
    exact absurd (List.eq_nil_of_length_eq_zero (by omega)) hne
  | succ n ih =>
    intro t l hne hlen hall
    match l with
    | [p] =>
      rw [calculateBezierPoint]
      exact hall p (by simp)
    | p :: q :: rest =>
      rw [calculateBezierPoint]
      refine ih t _ ?_ ?_ ?_
      · have hl := deCasteljauStep_length t (p :: q :: rest)
        intro hnil
        rw [hnil] at hl
        simp at hl
      · rw [deCasteljauStep_length]
        simp only [List.length_cons] at hlen ⊢
        omega
      · exact deCasteljauStep_const_snd t c _ hall

theorem moveDuration_pos (rnd : ℕ → ℝ) (distance : ℝ) (dOpt : Option ℝ)
    (hd : ∀ d ∈ dOpt, 0 < d) : 0 < moveDuration rnd distance dOpt := by
  rcases dOpt with _ | d
  · unfold moveDuration
    calc (0 : ℝ) < 0.3 := by norm_num
    _ ≤ _ := le_max_left _ _
  · exact hd d rfl

theorem samplePoint_head (jit : ℝ) (rnd : ℕ → ℝ) (l : List (ℝ × ℝ)) (p : ℝ × ℝ)
    (cpc : ℕ) (duration : ℝ) (steps : ℕ) :
    samplePoint jit rnd (p :: l) cpc duration steps 1 = p := by
  have ht : tLinear duration steps 1 = 0 := by
    unfold tLinear elapsedAt
    simp
  have he : easeInOut 0 = 0 := by
    unfold easeInOut
    norm_num
  simp only [samplePoint, ht, he]
  rw [calculateBezierPoint_zero l.length l p le_rfl]
  apply Prod.ext <;> (simp only [uniform]; ring)

theorem moveSamples_head (jit : ℝ) (rnd : ℕ → ℝ) (points : List (ℝ × ℝ))
    (cpc : ℕ) (duration : ℝ) (steps : ℕ) (hs : 1 ≤ steps) (hdur : 0 < duration) :
    (moveSamples jit rnd points cpc duration steps).head? =
      some (samplePoint jit rnd points cpc duration steps 1) := by
  obtain ⟨m, rfl⟩ : ∃ m, steps = m + 1 := ⟨steps - 1, by omega⟩
  unfold moveSamples
  rw [List.range_succ_eq_map, List.filterMap_cons]
  have h0 : elapsedAt duration (m + 1) (0 + 1) = 0 := by
    unfold elapsedAt
    simp
  rw [h0, if_pos hdur]
  rfl

/-- C9: the pointer motion of `move_mouse` starts and ends where the
claim says — for coincident start and target it skips curve generation
and moves directly with the fixed minimal duration 0.1; the final
delivered position is always exactly the target, including when the
overshoot-and-correct tail fires; when the distance is at least the
5-pixel near-move cutoff the first sampled point is exactly the start;
and below the cutoff (the claim's fixed epsilon) it moves directly to
the target. -/
theorem move_mouse_endpoints (jit : ℝ) (rnd : ℕ → ℝ) (cur target : ℝ × ℝ)
    (dOpt : Option ℝ) (hd : ∀ d ∈ dOpt, 0 < d) :
    (cur = target → moveMouse jit rnd cur target dOpt true = ([target], 0.1)) ∧
    ((moveMouse jit rnd cur target dOpt true).1.getLast? = some target) ∧
    (5 ≤ pyDist cur target →
      (moveMouse jit rnd cur target dOpt true).1.head? = some cur) ∧
    (pyDist cur target < 5 → (moveMouse jit rnd cur target dOpt true).1 = [target]) := by
  have hzero : cur = target → pyDist cur target = 0 := by
    intro h
    subst h
    unfold pyDist
    simp
  refine ⟨?_, ?_, ?_, ?_⟩
  · intro h
    unfold moveMouse
    rw [if_pos (by rw [hzero h]; norm_num)]
  · by_cases hlt : pyDist cur target < 5
    · unfold moveMouse
      rw [if_pos hlt]
      rfl
    · unfold moveMouse
      rw [if_neg hlt, if_neg (by simp)]
      simp only []
      by_cases hov : rnd (3 * controlPointsCount (pyDist cur target) + 1 +
          2 * (moveSteps (pyDist cur target) - 1)) < 0.3
      · rw [if_pos hov]
        rw [List.append_assoc]
        rw [List.getLast?_append_of_ne_nil _ (by simp)]
        rfl
      · rw [if_neg hov]
        simp only [List.append_nil]
        exact List.getLast?_concat _
  · intro h5
    unfold moveMouse
    rw [if_neg (not_lt.mpr h5), if_neg (by simp)]
    simp only []
    rw [List.append_assoc]
    rw [List.head?_append_of_ne_nil]
    · rw [moveSamples_head _ _ _ _ _ _ (by unfold moveSteps; omega)
        (moveDuration_pos rnd _ dOpt hd)]
      obtain ⟨l, hl⟩ : ∃ l, generateBezierPoints rnd cur target
          (controlPointsCount (pyDist cur target)) = cur :: l := ⟨_, rfl⟩
      rw [hl, samplePoint_head]
    · intro hnil
      have := moveSamples_head jit rnd
        (generateBezierPoints rnd cur target (controlPointsCount (pyDist cur target)))
        (controlPointsCount (pyDist cur target))
        (moveDuration rnd (pyDist cur target) dOpt)
        (moveSteps (pyDist cur target))
        (by unfold moveSteps; omega) (moveDuration_pos rnd _ dOpt hd)
      rw [hnil] at this
      simp at this
  · intro hlt
    unfold moveMouse
    rw [if_pos hlt]

theorem pyDist_horizontal300 : pyDist ((0 : ℝ), (0 : ℝ)) (300, 0) = 300 := by
  unfold pyDist
  rw [show ((300, (0:ℝ)).1 - ((0:ℝ), (0:ℝ)).1) ^ 2 +
      ((300, (0:ℝ)).2 - ((0:ℝ), (0:ℝ)).2) ^ 2 = 300 ^ 2 by norm_num]
  exact Real.sqrt_sq (by norm_num)

/-- Witness for C9: with start `(0, 0)` and target `(300, 0)` the first
sampled point is the start and the final delivered point is the target;
coincident start and target short-circuit to a direct move of fixed
duration 0.1. -/
theorem move_mouse_endpoints_witness :
    (moveMouse (1/10) (fun _ => 0) ((10 : ℝ), (10 : ℝ)) (10, 10) none true =
      ([((10 : ℝ), (10 : ℝ))], 0.1)) ∧
    ((moveMouse (1/10) (fun _ => 0) ((0 : ℝ), (0 : ℝ)) (300, 0) none true).1.head? =
      some ((0 : ℝ), (0 : ℝ))) ∧
    ((moveMouse (1/10) (fun _ => 0) ((0 : ℝ), (0 : ℝ)) (300, 0) none true).1.getLast? =
      some ((300 : ℝ), (0 : ℝ))) :=
  ⟨(move_mouse_endpoints (1/10) (fun _ => 0) ((10 : ℝ), (10 : ℝ)) (10, 10) none
      (by simp)).1 rfl,
   (move_mouse_endpoints (1/10) (fun _ => 0) ((0 : ℝ), (0 : ℝ)) (300, 0) none
      (by simp)).2.2.1 (by rw [pyDist_horizontal300]; norm_num),
   (move_mouse_endpoints (1/10) (fun _ => 0) ((0 : ℝ), (0 : ℝ)) (300, 0) none
      (by simp)).2.1⟩

/-- All-zero random tape of the off-screen counterexample: every
`random.uniform(a, b)` returns its lower bound `a`, and the overshoot
check fires. -/
noncomputable def cexRnd : ℕ → ℝ := fun _ => 0

/-- Curve points of the counterexample move from `(0, 0)` to `(300, 0)`. -/
noncomputable def cexPoints : List (ℝ × ℝ) :=
  generateBezierPoints cexRnd ((0 : ℝ), (0 : ℝ)) (300, 0) 2

theorem cexCpc : controlPointsCount 300 = 2 := by
  unfold controlPointsCount
  norm_num

theorem cexSteps : moveSteps 300 = 60 := by
  unfold moveSteps
  norm_num
  rfl

/-- Every curve point of the counterexample lies on the x-axis: with the
all-zero tape both control-point rotation angles are `-π/2`, whose
cosine kills the perpendicular y-offset. -/
theorem cexPoints_snd_zero : ∀ q ∈ cexPoints, q.2 = 0 := by
  intro q hq
  unfold cexPoints generateBezierPoints at hq
  simp only [] at hq
  rcases List.mem_cons.mp hq with h | h
  · rw [h]
  · rcases List.mem_append.mp h with h | h
    · rcases List.mem_map.mp h with ⟨i, hi, hf⟩
      rw [← hf]
      simp only [cexRnd]
      have hang : uniform (-0.5) 0.5 0 * Real.pi = -(Real.pi / 2) := by
        unfold uniform
        ring
      have hsq : Real.sqrt (((300 : ℝ) - 0) ^ 2 + ((0 : ℝ) - 0) ^ 2) = 300 := by
        rw [show ((300 : ℝ) - 0) ^ 2 + ((0 : ℝ) - 0) ^ 2 = 300 ^ 2 by norm_num]
        exact Real.sqrt_sq (by norm_num)
      simp only [hang, hsq]
      rw [if_pos (by norm_num : (300 : ℝ) > 0)]
      simp [Real.cos_neg, Real.cos_pi_div_two]
    · rw [List.mem_singleton] at h
      rw [h]

/-- Movement duration of the counterexample run. -/
noncomputable def cexDuration : ℝ := moveDuration cexRnd 300 none

/-- Pointer position delivered by loop iteration 2 of the counterexample
run. -/
noncomputable def cexSample : ℝ × ℝ :=
  samplePoint (1/10) cexRnd cexPoints 2 cexDuration 60 2

theorem cexDuration_pos : 0 < cexDuration :=
  moveDuration_pos cexRnd 300 none (by simp)

theorem cexSample_mem :
    cexSample ∈ (moveMouse (1/10) cexRnd ((0 : ℝ), (0 : ℝ)) (300, 0) none true).1 := by
  unfold moveMouse
  simp only []
  rw [pyDist_horizontal300]
  rw [if_neg (by norm_num : ¬ (300 : ℝ) < 5), if_neg (by simp)]
  rw [cexCpc, cexSteps]
  apply List.mem_append_left
  apply List.mem_append_left
  unfold moveSamples
  apply List.mem_filterMap.mpr
  refine ⟨1, by simp, ?_⟩
  rw [if_pos ?hcond]
  case hcond =>
    unfold elapsedAt
    rw [if_neg (by norm_num)]
    push_cast
    nlinarith [show (0 : ℝ) < moveDuration cexRnd 300 none from cexDuration_pos]
  rfl

theorem cexSample_snd_neg : cexSample.2 < 0 := by
  unfold cexSample samplePoint
  simp only []
  have htl : tLinear cexDuration 60 2 = 1 / 30 := by
    unfold tLinear elapsedAt
    rw [if_neg (by norm_num)]
    rw [mul_div_assoc, div_self (ne_of_gt cexDuration_pos), mul_one]
    norm_num
  rw [htl]
  have hease : easeInOut (1 / 30 : ℝ) = 11 / 3375 := by
    unfold easeInOut
    rw [if_pos (by norm_num)]
    norm_num
  rw [hease]
  have hne : cexPoints ≠ [] := by
    unfold cexPoints generateBezierPoints
    simp
  rw [calculateBezierPoint_const_snd 0 cexPoints.length (11 / 3375) cexPoints hne
    le_rfl cexPoints_snd_zero]
  simp only [cexRnd]
  unfold uniform
  norm_num

/-- Counterexample to C4 as stated: for the on-screen endpoints `(0, 0)`
and `(300, 0)` on a 1920 x 1080 screen there is a randomness outcome (the
all-zero tape) under which a sampled point of the pointer path has a
negative y coordinate — the lateral jitter pushes the sample off the
screen edge and `move_mouse` performs no clamping. -/
theorem move_mouse_offscreen_cex :
    inScreen 1920 1080 ((0 : ℝ), (0 : ℝ)) ∧
    inScreen 1920 1080 ((300 : ℝ), (0 : ℝ)) ∧
    cexSample ∈ (moveMouse (1/10) cexRnd ((0 : ℝ), (0 : ℝ)) (300, 0) none true).1 ∧
    ¬ inScreen 1920 1080 cexSample := by
  refine ⟨⟨by norm_num, by norm_num, by norm_num, by norm_num⟩,
          ⟨by norm_num, by norm_num, by norm_num, by norm_num⟩,
          cexSample_mem, ?_⟩
  rintro ⟨-, -, hy, -⟩
  exact absurd hy (not_le.mpr cexSample_snd_neg)

/-- Axis-aligned box membership. -/
def inBox (loX hiX loY hiY : ℝ) (p : ℝ × ℝ) : Prop :=
  loX ≤ p.1 ∧ p.1 ≤ hiX ∧ loY ≤ p.2 ∧ p.2 ≤ hiY

theorem uniform_mem {a b : ℝ} (r : ℝ) (hab : a ≤ b) (hr : 0 ≤ r ∧ r ≤ 1) :
    a ≤ uniform a b r ∧ uniform a b r ≤ b := by
  unfold uniform
  constructor <;> nlinarith [hr.1, hr.2]

theorem easeInOut_mem (tl : ℝ) (h : 0 ≤ tl ∧ tl ≤ 1) :
    0 ≤ easeInOut tl ∧ easeInOut tl ≤ 1 := by
  unfold easeInOut
  split
  · constructor <;> nlinarith [h.1, h.2]
  · rename_i hge
    push_neg at hge
    constructor <;> nlinarith [h.1, h.2, hge]

theorem tLinear_mem (duration : ℝ) (steps i : ℕ) (hi : i ≤ steps) :
    0 ≤ tLinear duration steps i ∧ tLinear duration steps i ≤ 1 := by
  unfold tLinear elapsedAt
  split
  · simp
  · by_cases hd : duration = 0
    · simp [hd]
    · rw [mul_div_assoc, div_self hd, mul_one]
      constructor
      · positivity
      · rcases Nat.eq_zero_or_pos steps with hs | hs
        · subst hs
          simp
        · apply div_le_one_of_le₀
          · exact_mod_cast hi
          · positivity

theorem deCasteljauStep_box (t loX hiX loY hiY : ℝ) (ht : 0 ≤ t ∧ t ≤ 1) :
    ∀ (l : List (ℝ × ℝ)), (∀ p ∈ l, inBox loX hiX loY hiY p) →
      ∀ p ∈ deCasteljauStep t l, inBox loX hiX loY hiY p := by
  intro l
  match l with
  | [] => intro _ p hp; simp [deCasteljauStep] at hp
  | [q] => intro _ p hp; simp [deCasteljauStep] at hp
  | p0 :: q0 :: rest =>
    intro hall p hp
    rw [deCasteljauStep] at hp
    rcases List.mem_cons.mp hp with h | h
    · subst h
      obtain ⟨h1, h2, h3, h4⟩ := hall p0 (by simp)
      obtain ⟨g1, g2, g3, g4⟩ := hall q0 (by simp)
      refine ⟨?_, ?_, ?_, ?_⟩ <;> (simp only []; nlinarith [ht.1, ht.2])
    · exact deCasteljauStep_box t loX hiX loY hiY ht (q0 :: rest)
        (fun x hx => hall x (List.mem_cons_of_mem p0 hx)) p h

theorem calculateBezierPoint_box (loX hiX loY hiY : ℝ) :
    ∀ (n : ℕ) (t : ℝ), 0 ≤ t ∧ t ≤ 1 →
      ∀ (l : List (ℝ × ℝ)), l ≠ [] → l.length ≤ n →
      (∀ p ∈ l, inBox loX hiX loY hiY p) →
      inBox loX hiX loY hiY (calculateBezierPoint t l) := by
  intro n
  induction n with
  | zero =>
    intro t _ l hne hlen _
    exact absurd (List.eq_nil_of_length_eq_zero (by omega)) hne
  | succ n ih =>
    intro t ht l hne hlen hall
    match l with
    | [p] =>
      rw [calculateBezierPoint]
      exact hall p (by simp)
    | p :: q :: rest =>
      rw [calculateBezierPoint]
      refine ih t ht _ ?_ ?_ ?_
      · have hl := deCasteljauStep_length t (p :: q :: rest)
        intro hnil
        rw [hnil] at hl
        simp at hl
      · rw [deCasteljauStep_length]
        simp only [List.length_cons] at hlen ⊢
        omega
      · exact deCasteljauStep_box t loX hiX loY hiY ht _ hall

theorem generateBezierPoints_ne_nil (rnd : ℕ → ℝ) (start stop : ℝ × ℝ) (cpc : ℕ) :
    generateBezierPoints rnd start stop cpc ≠ [] := by
  unfold generateBezierPoints
  simp

theorem stop_mem_generateBezierPoints (rnd : ℕ → ℝ) (start stop : ℝ × ℝ) (cpc : ℕ) :
    stop ∈ generateBezierPoints rnd start stop cpc := by
  unfold generateBezierPoints
  simp

theorem samplePoint_in_expanded_box (jit : ℝ) (rnd : ℕ → ℝ)
    (points : List (ℝ × ℝ)) (cpc : ℕ) (duration : ℝ) (steps i : ℕ)
    (loX hiX loY hiY : ℝ) (hjit : 0 ≤ jit ∧ jit ≤ 3/20)
    (hrnd : ∀ k, 0 ≤ rnd k ∧ rnd k ≤ 1) (hi : i ≤ steps)
    (hne : points ≠ []) (hbox : ∀ p ∈ points, inBox loX hiX loY hiY p) :
    inBox (loX - 3) (hiX + 3) (loY - 3) (hiY + 3)
      (samplePoint jit rnd points cpc duration steps i) := by
  have ht : 0 ≤ easeInOut (tLinear duration steps i) ∧
      easeInOut (tLinear duration steps i) ≤ 1 :=
    easeInOut_mem _ (tLinear_mem duration steps i hi)
  have hb := calculateBezierPoint_box loX hiX loY hiY points.length
    (easeInOut (tLinear duration steps i)) ht points hne le_rfl hbox
  obtain ⟨hb1, hb2, hb3, hb4⟩ := hb
  have hjf : 0 ≤ jit * 4 * easeInOut (tLinear duration steps i) *
      (1 - easeInOut (tLinear duration steps i)) ∧
      jit * 4 * easeInOut (tLinear duration steps i) *
        (1 - easeInOut (tLinear duration steps i)) ≤ 3/20 := by
    constructor
    · exact mul_nonneg (mul_nonneg (mul_nonneg hjit.1 (by norm_num)) ht.1)
        (by linarith [ht.2])
    · nlinarith [mul_nonneg hjit.1
        (sq_nonneg (2 * easeInOut (tLinear duration steps i) - 1)), hjit.2, ht.1, ht.2]
  unfold samplePoint
  simp only []
  have hu1 := uniform_mem (rnd (3 * cpc + 1 + 2 * (i - 1)))
    (by nlinarith [hjf.1] :
      -(jit * 4 * easeInOut (tLinear duration steps i) *
        (1 - easeInOut (tLinear duration steps i))) ≤
      jit * 4 * easeInOut (tLinear duration steps i) *
        (1 - easeInOut (tLinear duration steps i))) (hrnd _)
  have hu2 := uniform_mem (rnd (3 * cpc + 1 + 2 * (i - 1) + 1))
    (by nlinarith [hjf.1] :
      -(jit * 4 * easeInOut (tLinear duration steps i) *
        (1 - easeInOut (tLinear duration steps i))) ≤
      jit * 4 * easeInOut (tLinear duration steps i) *
        (1 - easeInOut (tLinear duration steps i))) (hrnd _)
  refine ⟨?_, ?_, ?_, ?_⟩ <;>
    (simp only []; nlinarith [hu1.1, hu1.2, hu2.1, hu2.2, hjf.1, hjf.2])

/-- C4 (amended): `move_mouse` clamps nothing to the screen; what holds
instead is that every delivered pointer position stays within the
bounding box of the generated curve points expanded by 3 pixels — the
lateral jitter strays at most `5 * jitter_amount ≤ 0.75` from the convex
hull of the curve points, and the overshoot offset is drawn from
`[-3, 3]`.  The samples are not confined to the screen, as the
counterexample with on-screen endpoints and a negative-y sample shows. -/
theorem move_mouse_path_in_expanded_box (jit : ℝ) (rnd : ℕ → ℝ)
    (cur target : ℝ × ℝ) (dOpt : Option ℝ) (loX hiX loY hiY : ℝ)
    (hjit : 0 ≤ jit ∧ jit ≤ 3/20) (hrnd : ∀ k, 0 ≤ rnd k ∧ rnd k ≤ 1)
    (hbox : ∀ p ∈ generateBezierPoints rnd cur target
        (controlPointsCount (pyDist cur target)), inBox loX hiX loY hiY p) :
    ∀ q ∈ (moveMouse jit rnd cur target dOpt true).1,
      inBox (loX - 3) (hiX + 3) (loY - 3) (hiY + 3) q := by
  have htgt : inBox loX hiX loY hiY target :=
    hbox target (stop_mem_generateBezierPoints rnd cur target _)
  have htgt3 : inBox (loX - 3) (hiX + 3) (loY - 3) (hiY + 3) target := by
    obtain ⟨a, b, c, d⟩ := htgt
    exact ⟨by linarith, by linarith, by linarith, by linarith⟩
  intro q hq
  unfold moveMouse at hq
  simp only [] at hq
  by_cases hdist : pyDist cur target < 5
  · rw [if_pos hdist] at hq
    simp only [List.mem_singleton] at hq
    rw [hq]
    exact htgt3
  · rw [if_neg hdist, if_neg (by simp)] at hq
    simp only [] at hq
    rw [List.append_assoc] at hq
    rcases List.mem_append.mp hq with h | h
    · unfold moveSamples at h
      rcases List.mem_filterMap.mp h with ⟨k, hk, hsome⟩
      split at hsome
      · rw [Option.some_inj] at hsome
        rw [← hsome]
        refine samplePoint_in_expanded_box jit rnd _ _ _ _ _ _ _ _ _ hjit hrnd
          ?_ (generateBezierPoints_ne_nil rnd cur target _) hbox
        rw [List.mem_range] at hk
        omega
      · simp at hsome
    · rcases List.mem_cons.mp h with h | h
      · rw [h]
        exact htgt3
      · split at h
        · rcases List.mem_cons.mp h with h | h
          · rw [h]
            obtain ⟨a, b, c, d⟩ := htgt
            have hu := uniform_mem
              (rnd (3 * controlPointsCount (pyDist cur target) + 1 +
                2 * (moveSteps (pyDist cur target) - 1) + 2))
              (by norm_num : (-3 : ℝ) ≤ 3) (hrnd _)
            exact ⟨by simp only []; linarith [hu.1],
                   by simp only []; linarith [hu.2],
                   by simp only []; linarith [hu.1],
                   by simp only []; linarith [hu.2]⟩
          · rw [List.mem_singleton] at h
            rw [h]
            exact htgt3
        · simp at h

theorem cexPoints_box : ∀ p ∈ cexPoints, inBox 0 300 0 0 p := by
  intro p hp
  have hy := cexPoints_snd_zero p hp
  have hx : 0 ≤ p.1 ∧ p.1 ≤ 300 := by
    unfold cexPoints generateBezierPoints at hp
    simp only [] at hp
    rcases List.mem_cons.mp hp with h | h
    · rw [h]
      norm_num
    · rcases List.mem_append.mp h with h | h
      · rcases List.mem_map.mp h with ⟨i, hi, hf⟩
        rw [← hf]
        simp only [cexRnd]
        have hang : uniform (-0.5) 0.5 0 * Real.pi = -(Real.pi / 2) := by
          unfold uniform
          ring
        have hsq : Real.sqrt (((300 : ℝ) - 0) ^ 2 + ((0 : ℝ) - 0) ^ 2) = 300 := by
          rw [show ((300 : ℝ) - 0) ^ 2 + ((0 : ℝ) - 0) ^ 2 = 300 ^ 2 by norm_num]
          exact Real.sqrt_sq (by norm_num)
        simp only [hang, hsq]
        rw [if_pos (by norm_num : (300 : ℝ) > 0)]
        simp only [Real.cos_neg, Real.cos_pi_div_two, Real.sin_neg, Real.sin_pi_div_two]
        have hT1 : (0.1 : ℝ) ≤ max 0.1 (min 0.9
            (((i : ℝ) + 1) / ((2 : ℕ) + 1) * uniform 0.8 1.2 0)) := le_max_left _ _
        have hT2 : max 0.1 (min 0.9
            (((i : ℝ) + 1) / ((2 : ℕ) + 1) * uniform 0.8 1.2 0)) ≤ (0.9 : ℝ) :=
          max_le (by norm_num) (min_le_left _ _)
        have hS1 := Real.neg_one_le_sin (Real.pi * max 0.1 (min 0.9
            (((i : ℝ) + 1) / ((2 : ℕ) + 1) * uniform 0.8 1.2 0)))
        have hS2 := Real.sin_le_one (Real.pi * max 0.1 (min 0.9
            (((i : ℝ) + 1) / ((2 : ℕ) + 1) * uniform 0.8 1.2 0)))
        have hu : uniform 0.1 0.4 0 = (0.1 : ℝ) := by
          unfold uniform
          norm_num
        rw [hu]
        constructor <;> nlinarith [hT1, hT2, hS1, hS2]
      · rw [List.mem_singleton] at h
        rw [h]
        norm_num
  exact ⟨hx.1, hx.2, by rw [hy], by rw [hy]⟩

/-- Witness for the C4 amended theorem: the off-screen sample of the
counterexample still lies within the curve points' bounding box
`[0, 300] x [0, 0]` expanded by 3 pixels. -/
theorem move_mouse_path_in_expanded_box_witness :
    inBox (0 - 3) (300 + 3) (0 - 3) (0 + 3) cexSample :=
  move_mouse_path_in_expanded_box (1/10) cexRnd ((0 : ℝ), (0 : ℝ)) (300, 0) none
    0 300 0 0 (by norm_num) (fun k => by simp [cexRnd])
    (by rw [pyDist_horizontal300, cexCpc]; exact cexPoints_box)
    cexSample cexSample_mem

end WebLLM
